import Mathlib

/-!
Verification of the version range matching and dependency classification
engine of the shai-hulud-scanner repository.

The definitions below are a shallow embedding of the JavaScript source:

* lib/csv-parser.js (local semver implementation): parseVersion,
  compareVersions, satisfiesComparator, satisfies;
* lib/check-dependencies.js: parsePackageLockJson, parseYarnLock,
  parsePnpmLock, checkDependencies.

Strings are modelled as Lean strings (lists of characters); the host
JSON.parse is modelled by an executable JSON parser; machine numbers that
the code parses from decimal digit runs are modelled as exact naturals;
fallible code returns Except; the one JavaScript throw site that matters
(member access on null, rethrown by checkDependencies as its descriptive
parse fault) is modelled by the Except error channel.
-/

/-! ## Character and list utilities -/

/-- Whitespace per the JavaScript regular expression class \s and
String.prototype.trim (space, tab, line terminators, and the Unicode
space separators). -/
def isJsWs (c : Char) : Bool :=
  c = ' ' || c = '\t' || c = '\n' || c = '\r' ||
  c = '\x0b' || c = '\x0c' || c = '\u00A0' || c = '\u1680' ||
  ('\u2000' ≤ c && c ≤ '\u200A') || c = '\u2028' || c = '\u2029' ||
  c = '\u202F' || c = '\u205F' || c = '\u3000' || c = '\uFEFF'

/-- Remove trailing whitespace characters. -/
def trimEndWs : List Char → List Char
  | [] => []
  | c :: cs =>
    let r := trimEndWs cs
    if r = [] && isJsWs c then [] else c :: r

/-- JavaScript String.prototype.trim on a character list. -/
def trimChars (cs : List Char) : List Char :=
  trimEndWs (cs.dropWhile isJsWs)

/-- Decide whether the pattern list is an initial segment of the
second list (JavaScript String.prototype.startsWith). -/
def leadsWith : List Char → List Char → Bool
  | [], _ => true
  | _ :: _, [] => false
  | p :: ps, c :: cs => p = c && leadsWith ps cs

/-- Accumulator form of splitting on whitespace runs. -/
def splitWsAux : List Char → List Char → List (List Char)
  | [], acc => if acc = [] then [] else [acc.reverse]
  | c :: cs, acc =>
    if isJsWs c then
      if acc = [] then splitWsAux cs [] else acc.reverse :: splitWsAux cs []
    else splitWsAux cs (c :: acc)

/-- Split a character list into its maximal whitespace-free runs;
this is JavaScript split on the class \s followed by dropping the empty
pieces, as the combined-range branch of satisfies does. -/
def splitWs (cs : List Char) : List (List Char) :=
  splitWsAux cs []

/-- Numeric value of a decimal digit character. -/
def digitVal (c : Char) : Nat :=
  c.toNat - '0'.toNat

/-- Value of a run of decimal digit characters (JavaScript parseInt
base 10 on an all-digit string, modelled exactly). -/
def natOfDigits (ds : List Char) : Nat :=
  ds.foldl (fun n c => n * 10 + digitVal c) 0

/-! ## Version parsing and comparison (lib/csv-parser.js) -/

/-- Structured value produced by parseVersion. -/
structure ParsedVersion where
  major : Nat
  minor : Nat
  patch : Nat
  prerelease : Option (List Char)
deriving DecidableEq, Repr

/-- Line terminator characters, which the dot of the parseVersion
regular expression does not match. -/
def isLineTerm (c : Char) : Bool :=
  c = '\n' || c = '\r' || c = '\u2028' || c = '\u2029'

/-- Embedding of parseVersion: the anchored regular expression
(\d+)\.(\d+)\.(\d+)(?:-(.+))? over the whole string, where the dot
excludes line terminators. -/
def parseVersionChars (cs : List Char) : Option ParsedVersion :=
  match List.span Char.isDigit cs with
  | (d1, '.' :: r1) =>
    match List.span Char.isDigit r1 with
    | (d2, '.' :: r2) =>
      match List.span Char.isDigit r2 with
      | (d3, rest) =>
        if d1 = [] || d2 = [] || d3 = [] then none
        else
          match rest with
          | [] => some ⟨natOfDigits d1, natOfDigits d2, natOfDigits d3, none⟩
          | '-' :: pre =>
            if pre ≠ [] && pre.all (fun c => !isLineTerm c) then
              some ⟨natOfDigits d1, natOfDigits d2, natOfDigits d3, some pre⟩
            else none
          | _ => none
    | _ => none
  | _ => none

/-- Embedding of compareVersions: major, then minor, then patch; at an
equal triple a prerelease version is smaller, and two prerelease
versions compare as equal whatever their suffixes. -/
def compareVersions (a b : ParsedVersion) : Int :=
  if a.major ≠ b.major then (if a.major < b.major then -1 else 1)
  else if a.minor ≠ b.minor then (if a.minor < b.minor then -1 else 1)
  else if a.patch ≠ b.patch then (if a.patch < b.patch then -1 else 1)
  else if a.prerelease.isSome && !b.prerelease.isSome then -1
  else if !a.prerelease.isSome && b.prerelease.isSome then 1
  else 0

/-! ## The range matcher (lib/csv-parser.js) -/

/-- Test for the unanchored regular expression \d+\.\d+\.\d+ at the
start of the comparator, which selects the exact-version branch of
satisfiesComparator. -/
def testDigitsDotTwice (cs : List Char) : Bool :=
  match List.span Char.isDigit cs with
  | (d1, '.' :: r1) =>
    match List.span Char.isDigit r1 with
    | (d2, '.' :: r2) =>
      match List.span Char.isDigit r2 with
      | (d3, _) => !(d1 = []) && !(d2 = []) && !(d3 = [])
    | _ => false
  | _ => false

/-- Embedding of satisfiesComparator: trim, then exact version,
then the four comparison operators, else false. -/
def satisfiesComparator (v : ParsedVersion) (comp : List Char) : Bool :=
  let c := trimChars comp
  if testDigitsDotTwice c then
    match parseVersionChars c with
    | none => false
    | some rv => compareVersions v rv == 0
  else if leadsWith ['>', '='] c then
    match parseVersionChars (c.drop 2) with
    | none => false
    | some rv => decide (0 ≤ compareVersions v rv)
  else if leadsWith ['>'] c then
    match parseVersionChars (c.drop 1) with
    | none => false
    | some rv => decide (0 < compareVersions v rv)
  else if leadsWith ['<', '='] c then
    match parseVersionChars (c.drop 2) with
    | none => false
    | some rv => decide (compareVersions v rv ≤ 0)
  else if leadsWith ['<'] c then
    match parseVersionChars (c.drop 1) with
    | none => false
    | some rv => decide (compareVersions v rv < 0)
  else false

/-- The anchored regular expression (\d+)\.x(?:\.x)? used for the
major-only x-range branch of satisfies. -/
def xMatchCL (cs : List Char) : Option Nat :=
  match List.span Char.isDigit cs with
  | (ds, rest) =>
    if ds = [] then none
    else if rest = ['.', 'x'] || rest = ['.', 'x', '.', 'x'] then
      some (natOfDigits ds)
    else none

/-- The anchored regular expression (\d+)\.(\d+)\.x used for the
major-minor x-range branch of satisfies. -/
def xxMatchCL (cs : List Char) : Option (Nat × Nat) :=
  match List.span Char.isDigit cs with
  | (d1, '.' :: r1) =>
    if d1 = [] then none
    else
      match List.span Char.isDigit r1 with
      | (d2, rest) =>
        if d2 = [] then none
        else if rest = ['.', 'x'] then some (natOfDigits d1, natOfDigits d2)
        else none
  | _ => none

/-- Caret branch of satisfies, applied to the range with its leading
caret removed. -/
def caretEval (pv : ParsedVersion) (anchor : List Char) : Bool :=
  match parseVersionChars anchor with
  | none => false
  | some rv =>
    if pv.prerelease.isSome then false
    else if rv.major = 0 then
      if rv.minor = 0 then compareVersions pv rv == 0
      else (pv.major == 0) && (pv.minor == rv.minor) && decide (rv.patch ≤ pv.patch)
    else (pv.major == rv.major) && decide (0 ≤ compareVersions pv rv)

/-- Tilde branch of satisfies, applied to the range with its leading
tilde removed. -/
def tildeEval (pv : ParsedVersion) (anchor : List Char) : Bool :=
  match parseVersionChars anchor with
  | none => false
  | some rv =>
    if pv.prerelease.isSome then false
    else (pv.major == rv.major) && (pv.minor == rv.minor) && decide (rv.patch ≤ pv.patch)

/-- Dispatch of satisfies over the already-trimmed range, in source
order: wildcard, the two x-range shapes, caret, tilde, space-separated
conjunction, then a single comparator. -/
def satisfiesTrimmed (pv : ParsedVersion) (rt : List Char) : Bool :=
  if rt = ['*'] then !pv.prerelease.isSome
  else
    match xMatchCL rt with
    | some major => (pv.major == major) && !pv.prerelease.isSome
    | none =>
      match xxMatchCL rt with
      | some mm => (pv.major == mm.1) && (pv.minor == mm.2) && !pv.prerelease.isSome
      | none =>
        if rt.head? = some '^' then caretEval pv (rt.drop 1)
        else if rt.head? = some '~' then tildeEval pv (rt.drop 1)
        else if rt.contains ' ' then
          (splitWs rt).all (fun part => satisfiesComparator pv part)
        else satisfiesComparator pv rt

/-- Body of satisfies after the version has parsed: trim the range
once (as the source reassigns range to range.trim()), then dispatch. -/
def satisfiesAux (pv : ParsedVersion) (rangeCs : List Char) : Bool :=
  satisfiesTrimmed pv (trimChars rangeCs)

/-- Embedding of satisfies(version, range). -/
def satisfies (version range : String) : Bool :=
  match parseVersionChars version.data with
  | none => false
  | some pv => satisfiesAux pv range.data

/-- Embedding of matchesVersion(declaredVersion, maliciousVersion) for
string arguments. -/
def matchesVersion (declaredVersion maliciousVersion : String) : Bool :=
  satisfies maliciousVersion declaredVersion

/-- Transcription of the range grammar enumerated by the specification
for the matcher: wildcard, the two x-range shapes, caret, tilde,
a space-separated conjunction, a comparator, or a bare version. This
definition follows the words of the claims, to be compared with the
behaviour of the source embedding. -/
def recognizedRange (r : String) : Bool :=
  let rt := trimChars r.data
  (rt == ['*']) || (xMatchCL rt).isSome || (xxMatchCL rt).isSome ||
  (rt.head? == some '^') || (rt.head? == some '~') || rt.contains ' ' ||
  leadsWith ['>'] rt || leadsWith ['<'] rt || testDigitsDotTwice rt

/-! ## Lemmas about the text utilities -/

lemma trimEndWs_idem (cs : List Char) : trimEndWs (trimEndWs cs) = trimEndWs cs := by
  induction cs with
  | nil => rfl
  | cons c cs ih =>
    by_cases h1 : trimEndWs cs = []
    · by_cases h2 : isJsWs c = true
      · simp [trimEndWs, h1, h2]
      · simp [trimEndWs, h1, h2, ih]
    · simp [trimEndWs, h1, ih]

lemma dropWhile_trimChars (cs : List Char) :
    (trimChars cs).dropWhile isJsWs = trimChars cs := by
  unfold trimChars
  have hh := List.head?_dropWhile_not isJsWs cs
  cases hd : cs.dropWhile isJsWs with
  | nil => rfl
  | cons a rest =>
    rw [hd] at hh
    simp only [List.head?] at hh
    by_cases hr : trimEndWs rest = []
    · by_cases ha : isJsWs a = true
      · simp_all
      · simp [trimEndWs, hr, ha]
    · have : trimEndWs (a :: rest) = a :: trimEndWs rest := by
        simp [trimEndWs, hr]
      rw [this, List.dropWhile_cons_of_neg]
      simp_all

lemma trimChars_idem (cs : List Char) : trimChars (trimChars cs) = trimChars cs := by
  conv_lhs => rw [trimChars, dropWhile_trimChars]
  rw [trimChars, trimEndWs_idem]

lemma trimChars_of_no_ws (cs : List Char) (h : ∀ c ∈ cs, isJsWs c = false) :
    trimChars cs = cs := by
  have h1 : cs.dropWhile isJsWs = cs := by
    cases cs with
    | nil => rfl
    | cons a rest => rw [List.dropWhile_cons_of_neg]; simp [h a (by simp)]
  have h2 : ∀ ds : List Char, (∀ c ∈ ds, isJsWs c = false) → trimEndWs ds = ds := by
    intro ds hds
    induction ds with
    | nil => rfl
    | cons a rest ih =>
      have ha : isJsWs a = false := hds a (by simp)
      have hrest := ih (fun c hc => hds c (by simp [hc]))
      simp [trimEndWs, ha, hrest]
  rw [trimChars, h1, h2 cs h]

lemma leadsWith_pair_false (p q : Char) (cs : List Char)
    (h : leadsWith [p] cs = false) : leadsWith [p, q] cs = false := by
  cases cs with
  | nil => rfl
  | cons c rest =>
    simp only [leadsWith, Bool.and_eq_false_iff] at h ⊢
    rcases h with h | h
    · exact Or.inl h
    · cases rest <;> simp_all [leadsWith]

lemma leadsWith_head_false (p : Char) (cs : List Char)
    (h : cs.head? ≠ some p) : leadsWith [p] cs = false := by
  cases cs with
  | nil => rfl
  | cons c rest => simp only [List.head?] at h; simp [leadsWith]; intro hc; simp_all

lemma mem_splitWsAux (part : List Char) (cs acc : List Char)
    (hacc : ∀ c ∈ acc, isJsWs c = false)
    (hp : part ∈ splitWsAux cs acc) : ∀ c ∈ part, isJsWs c = false := by
  induction cs generalizing acc with
  | nil =>
    simp only [splitWsAux] at hp
    by_cases ha : acc = []
    · simp [ha] at hp
    · simp [ha] at hp
      subst hp
      intro c hc
      exact hacc c (List.mem_reverse.mp hc)
  | cons c0 rest ih =>
    simp only [splitWsAux] at hp
    by_cases hws : isJsWs c0 = true
    · rw [if_pos hws] at hp
      by_cases ha : acc = []
      · rw [if_pos ha] at hp
        exact ih [] (by simp) hp
      · rw [if_neg ha] at hp
        rcases List.mem_cons.mp hp with h | h
        · subst h
          intro c hc
          exact hacc c (List.mem_reverse.mp hc)
        · exact ih [] (by simp) h
    · rw [if_neg hws] at hp
      refine ih (c0 :: acc) ?_ hp
      intro c hc
      rcases List.mem_cons.mp hc with h | h
      · subst h; simpa using hws
      · exact hacc c h

lemma mem_splitWs (part cs : List Char) (hp : part ∈ splitWs cs) :
    ∀ c ∈ part, isJsWs c = false :=
  mem_splitWsAux part cs [] (by simp) hp

/-! ## Lemmas about the range grammar dispatch -/

lemma xMatchCL_cons_of_not_digit (c : Char) (cs : List Char)
    (h : Char.isDigit c = false) : xMatchCL (c :: cs) = none := by
  unfold xMatchCL
  rw [List.span_eq_take_drop, List.takeWhile_cons_of_neg (by simp [h])]
  simp

lemma xxMatchCL_cons_of_not_digit (c : Char) (cs : List Char)
    (h : Char.isDigit c = false) : xxMatchCL (c :: cs) = none := by
  unfold xxMatchCL
  rw [List.span_eq_take_drop, List.takeWhile_cons_of_neg (by simp [h]),
    List.dropWhile_cons_of_neg (by simp [h])]
  by_cases hc : c = '.'
  · subst hc; simp
  · have : ∀ r1 : List Char, (match ([], c :: cs) with
      | (d1, '.' :: r1) =>
        if d1 = [] then none
        else
          match List.span Char.isDigit r1 with
          | (d2, rest) =>
            if d2 = [] then none
            else if rest = ['.', 'x'] then some (natOfDigits d1, natOfDigits d2)
            else none
      | _ => (none : Option (Nat × Nat))) = none := by
      intro r1
      cases hceq : c == '.' with
      | true => exact absurd (by simpa using hceq) hc
      | false => simp_all
    exact this cs

lemma testDigitsDotTwice_cons_of_not_digit (c : Char) (cs : List Char)
    (h : Char.isDigit c = false) : testDigitsDotTwice (c :: cs) = false := by
  unfold testDigitsDotTwice
  rw [List.span_eq_take_drop, List.takeWhile_cons_of_neg (by simp [h]),
    List.dropWhile_cons_of_neg (by simp [h])]
  by_cases hc : c = '.'
  · subst hc
    simp only []
    split <;> rfl
  · cases hceq : c == '.' with
    | true => exact absurd (by simpa using hceq) hc
    | false => simp_all

lemma satisfies_eq_trimmed (v r : String) (pv : ParsedVersion)
    (hv : parseVersionChars v.data = some pv) :
    satisfies v r = satisfiesTrimmed pv (trimChars r.data) := by
  unfold satisfies satisfiesAux
  rw [hv]

lemma compareVersions_eq_zero_iff_of_no_pre (pv R : ParsedVersion)
    (h : pv.prerelease = none) :
    (compareVersions pv R == 0) = true ↔ pv = R := by
  obtain ⟨pM, pm, pp, ppre⟩ := pv
  obtain ⟨rM, rm, rp, rpre⟩ := R
  simp only at h
  subst h
  unfold compareVersions
  simp only [ParsedVersion.mk.injEq]
  split_ifs with h1 h2 h3 h4 h5 h6 h7 <;>
    (simp_all
     try first
       | omega
       | (cases rpre <;> simp_all))

/-! ## Claim C3 -/

/-- C3: satisfies('5.11.3', 'latest') and satisfies('latest', 'latest')
both return false; a range or version string that does not parse never
matches, and evaluation is a total computation (there is no error
channel in satisfies). -/
theorem satisfies_latest_false :
    satisfies "5.11.3" "latest" = false ∧ satisfies "latest" "latest" = false := by
  constructor <;> rfl

/-! ## Claim C6 -/

/-- C6: caret-range semantics. For a version that parses to pv and a
range whose trimmed text is a caret followed by an anchor parsing to R:
with no prerelease on pv, the zero-zero anchor demands exact equality,
the zero-major anchor with positive minor demands major 0, equal minor
and at-least patch, and otherwise the match demands equal major and a
non-negative comparison; a version with a prerelease never matches any
caret range. -/
theorem caret_range_semantics (v r : String) (pv R : ParsedVersion) (a : List Char)
    (hv : parseVersionChars v.data = some pv)
    (hr : trimChars r.data = '^' :: a)
    (ha : parseVersionChars a = some R) :
    (pv.prerelease = none →
      ((R.major = 0 ∧ R.minor = 0) → (satisfies v r = true ↔ pv = R)) ∧
      ((R.major = 0 ∧ 0 < R.minor) →
        (satisfies v r = true ↔ pv.major = 0 ∧ pv.minor = R.minor ∧ R.patch ≤ pv.patch)) ∧
      (0 < R.major →
        (satisfies v r = true ↔ pv.major = R.major ∧ 0 ≤ compareVersions pv R)))
    ∧ (pv.prerelease ≠ none → satisfies v r = false) := by
  have hsat : satisfies v r = caretEval pv a := by
    rw [satisfies_eq_trimmed v r pv hv, hr]
    unfold satisfiesTrimmed
    rw [if_neg (by simp), xMatchCL_cons_of_not_digit _ _ (by decide),
      xxMatchCL_cons_of_not_digit _ _ (by decide)]
    rw [if_pos (by simp)]
    simp
  have heval : caretEval pv a =
      if pv.prerelease.isSome then false
      else if R.major = 0 then
        if R.minor = 0 then compareVersions pv R == 0
        else (pv.major == 0) && (pv.minor == R.minor) && decide (R.patch ≤ pv.patch)
      else (pv.major == R.major) && decide (0 ≤ compareVersions pv R) := by
    unfold caretEval
    rw [ha]
  constructor
  · intro hpre
    have hps : pv.prerelease.isSome = false := by rw [hpre]; rfl
    refine ⟨?_, ?_, ?_⟩
    · rintro ⟨hM, hm⟩
      rw [hsat, heval, if_neg (by simp [hps]), if_pos hM, if_pos hm]
      exact compareVersions_eq_zero_iff_of_no_pre pv R hpre
    · rintro ⟨hM, hm⟩
      rw [hsat, heval, if_neg (by simp [hps]), if_pos hM, if_neg (by omega)]
      simp [and_assoc]
    · intro hM
      rw [hsat, heval, if_neg (by simp [hps]), if_neg (by omega)]
      simp
  · intro hpre
    rw [hsat, heval, if_pos (by simpa [Option.isSome_iff_ne_none] using hpre)]

/-- Witness for C6 at the concrete inputs named by the claim. -/
theorem caret_range_semantics_witness :
    satisfies "0.2.5" "^0.2.3" = true ∧ satisfies "0.3.0" "^0.2.3" = false := by
  constructor
  · exact (((caret_range_semantics "0.2.5" "^0.2.3" ⟨0, 2, 5, none⟩ ⟨0, 2, 3, none⟩
      ("0.2.3".data) rfl rfl rfl).1 rfl).2.1 ⟨rfl, by decide⟩).mpr (by decide)
  · have h := (((caret_range_semantics "0.3.0" "^0.2.3" ⟨0, 3, 0, none⟩ ⟨0, 2, 3, none⟩
      ("0.2.3".data) rfl rfl rfl).1 rfl).2.1 ⟨rfl, by decide⟩)
    rw [Bool.eq_false_iff]
    intro htrue
    have hc := h.mp htrue
    simp only at hc
    omega

/-! ## Claim C2 -/

/-- Counterexample to C2: the range latest is outside the recognized
grammar and equals the version latest verbatim, yet satisfies returns
false, so the matcher does not fall back to verbatim string equality. -/
theorem no_fallback_counterexample :
    recognizedRange "latest" = false ∧ satisfies "latest" "latest" = false := by
  constructor <;> rfl

/-- C2 amended: for every version string and every range outside the
recognized grammar, satisfies returns false — regardless of string
equality between the two arguments — and the computation is total. -/
theorem unrecognized_range_never_matches (v r : String)
    (h : recognizedRange r = false) : satisfies v r = false := by
  cases hv : parseVersionChars v.data with
  | none =>
    unfold satisfies
    rw [hv]
  | some pv =>
    rw [satisfies_eq_trimmed v r pv hv]
    simp only [recognizedRange, Bool.or_eq_false_iff] at h
    obtain ⟨⟨⟨⟨⟨⟨⟨⟨h1, h2⟩, h3⟩, h4⟩, h5⟩, h6⟩, h7⟩, h8⟩, h9⟩ := h
    have hx : xMatchCL (trimChars r.data) = none := by
      cases hxe : xMatchCL (trimChars r.data) with
      | none => rfl
      | some n => rw [hxe] at h2; simp at h2
    have hxx : xxMatchCL (trimChars r.data) = none := by
      cases hxe : xxMatchCL (trimChars r.data) with
      | none => rfl
      | some mm => rw [hxe] at h3; simp at h3
    unfold satisfiesTrimmed
    rw [if_neg (by simpa using h1), hx, hxx]
    rw [if_neg (by simpa using h4), if_neg (by simpa using h5), if_neg (by rw [h6]; simp)]
    unfold satisfiesComparator
    rw [trimChars_idem]
    rw [if_neg (by simp [h9]), if_neg (by simp [leadsWith_pair_false _ _ _ h7]),
      if_neg (by simp [h7]), if_neg (by simp [leadsWith_pair_false _ _ _ h8]),
      if_neg (by simp [h8])]

/-- Witness for the amended C2 at a concrete unrecognized range. -/
theorem unrecognized_range_never_matches_witness :
    satisfies "1.2.3" "latest" = false :=
  unrecognized_range_never_matches "1.2.3" "latest" (by rfl)

/-! ## Claim C10 -/

lemma xMatchCL_shape (cs : List Char) (n : Nat) (h : xMatchCL cs = some n) :
    ∃ ds rest, cs = ds ++ rest ∧ ds ≠ [] ∧ (∀ c ∈ ds, Char.isDigit c = true) ∧
      (rest = ['.', 'x'] ∨ rest = ['.', 'x', '.', 'x']) := by
  unfold xMatchCL at h
  simp only [List.span_eq_take_drop] at h
  split_ifs at h with h1 h2
  exact ⟨List.takeWhile Char.isDigit cs, List.dropWhile Char.isDigit cs,
    (List.takeWhile_append_dropWhile Char.isDigit cs).symm, h1,
    fun c hc => List.mem_takeWhile_imp hc, by simpa using h2⟩

lemma xxMatchCL_shape (cs : List Char) (mm : Nat × Nat) (h : xxMatchCL cs = some mm) :
    ∃ d1 d2, cs = d1 ++ '.' :: (d2 ++ ['.', 'x']) ∧ d1 ≠ [] ∧ d2 ≠ [] ∧
      (∀ c ∈ d1, Char.isDigit c = true) ∧ (∀ c ∈ d2, Char.isDigit c = true) := by
  unfold xxMatchCL at h
  simp only [List.span_eq_take_drop] at h
  cases hd : List.dropWhile Char.isDigit cs with
  | nil => rw [hd] at h; simp at h
  | cons c r1 =>
    rw [hd] at h
    cases hceq : c == '.' with
    | false => simp_all
    | true =>
      have hc : c = '.' := by simpa using hceq
      subst hc
      simp only [] at h
      split_ifs at h with h1 h2 h3
      refine ⟨List.takeWhile Char.isDigit cs, List.takeWhile Char.isDigit r1, ?_, h1, h2, ?_, ?_⟩
      · conv_lhs => rw [← List.takeWhile_append_dropWhile Char.isDigit cs, hd]
        rw [← h3, List.takeWhile_append_dropWhile]
      · exact fun c hc => List.mem_takeWhile_imp hc
      · exact fun c hc => List.mem_takeWhile_imp hc

lemma xMatchCL_no_space (cs : List Char) (hsp : cs.contains ' ' = true) :
    xMatchCL cs = none := by
  cases hx : xMatchCL cs with
  | none => rfl
  | some n =>
    obtain ⟨ds, rest, hcs, hne, hdig, hrest⟩ := xMatchCL_shape cs n hx
    have hmem : ' ' ∈ cs := by simpa using hsp
    rw [hcs] at hmem
    rcases List.mem_append.mp hmem with hm | hm
    · have := hdig ' ' hm; simp at this
    · rcases hrest with hr | hr <;> rw [hr] at hm <;> simp at hm

lemma xxMatchCL_no_space (cs : List Char) (hsp : cs.contains ' ' = true) :
    xxMatchCL cs = none := by
  cases hx : xxMatchCL cs with
  | none => rfl
  | some mm =>
    obtain ⟨d1, d2, hcs, h1, h2, hd1, hd2⟩ := xxMatchCL_shape cs mm hx
    have hmem : ' ' ∈ cs := by simpa using hsp
    rw [hcs] at hmem
    rcases List.mem_append.mp hmem with hm | hm
    · have := hd1 ' ' hm; simp at this
    · rcases List.mem_cons.mp hm with hm | hm
      · simp at hm
      · rcases List.mem_append.mp hm with hm | hm
        · have := hd2 ' ' hm; simp at this
        · simp at hm

lemma satisfiesComparator_false_of (pv : ParsedVersion) (part : List Char)
    (hws : trimChars part = part)
    (htest : testDigitsDotTwice part = false)
    (hgt : leadsWith ['>'] part = false) (hlt : leadsWith ['<'] part = false) :
    satisfiesComparator pv part = false := by
  unfold satisfiesComparator
  rw [hws]
  rw [if_neg (by simp [htest]), if_neg (by simp [leadsWith_pair_false _ _ _ hgt]),
    if_neg (by simp [hgt]), if_neg (by simp [leadsWith_pair_false _ _ _ hlt]),
    if_neg (by simp [hlt])]

lemma satisfiesComparator_bad_clause (pv : ParsedVersion) (part : List Char)
    (hws : ∀ c ∈ part, isJsWs c = false)
    (hbad : part.head? = some '^' ∨ part.head? = some '~' ∨ part = ['*'] ∨
      (xMatchCL part).isSome = true ∨ (xxMatchCL part).isSome = true) :
    satisfiesComparator pv part = false := by
  have htrim : trimChars part = part := trimChars_of_no_ws part hws
  rcases hbad with hb | hb | hb | hb | hb
  · cases part with
    | nil => simp at hb
    | cons c t =>
      simp only [List.head?, Option.some.injEq] at hb
      subst hb
      exact satisfiesComparator_false_of pv _ htrim
        (testDigitsDotTwice_cons_of_not_digit _ _ (by decide))
        (leadsWith_head_false _ _ (by simp)) (leadsWith_head_false _ _ (by simp))
  · cases part with
    | nil => simp at hb
    | cons c t =>
      simp only [List.head?, Option.some.injEq] at hb
      subst hb
      exact satisfiesComparator_false_of pv _ htrim
        (testDigitsDotTwice_cons_of_not_digit _ _ (by decide))
        (leadsWith_head_false _ _ (by simp)) (leadsWith_head_false _ _ (by simp))
  · subst hb
    exact satisfiesComparator_false_of pv _ htrim (by decide) (by decide) (by decide)
  · rw [Option.isSome_iff_exists] at hb
    obtain ⟨n, hx⟩ := hb
    obtain ⟨ds, rest, hcs, hne, hdig, hrest⟩ := xMatchCL_shape part n hx
    obtain ⟨d0, ds2, hds⟩ : ∃ d0 ds2, ds = d0 :: ds2 := by
      cases ds with
      | nil => simp at hne
      | cons a b => exact ⟨a, b, rfl⟩
    have hd0 : Char.isDigit d0 = true := hdig d0 (by simp [hds])
    have hd0gt : d0 ≠ '>' := fun hcontra => by
      rw [hcontra] at hd0; exact absurd hd0 (by decide)
    have hd0lt : d0 ≠ '<' := fun hcontra => by
      rw [hcontra] at hd0; exact absurd hd0 (by decide)
    have hhead : part.head? = some d0 := by rw [hcs, hds]; rfl
    have htest : testDigitsDotTwice part = false := by
      rw [hcs]
      unfold testDigitsDotTwice
      simp only [List.span_eq_take_drop, List.takeWhile_append_of_pos hdig,
        List.dropWhile_append_of_pos hdig]
      rcases hrest with hr | hr <;> subst hr <;> simp
    exact satisfiesComparator_false_of pv _ htrim htest
      (leadsWith_head_false _ _ (by rw [hhead]; simp [hd0gt]))
      (leadsWith_head_false _ _ (by rw [hhead]; simp [hd0lt]))
  · rw [Option.isSome_iff_exists] at hb
    obtain ⟨mm, hx⟩ := hb
    obtain ⟨d1, d2, hcs, h1, h2, hd1, hd2⟩ := xxMatchCL_shape part mm hx
    obtain ⟨d0, ds2, hds⟩ : ∃ d0 ds2, d1 = d0 :: ds2 := by
      cases d1 with
      | nil => simp at h1
      | cons a b => exact ⟨a, b, rfl⟩
    have hd0 : Char.isDigit d0 = true := hd1 d0 (by simp [hds])
    have hd0gt : d0 ≠ '>' := fun hcontra => by
      rw [hcontra] at hd0; exact absurd hd0 (by decide)
    have hd0lt : d0 ≠ '<' := fun hcontra => by
      rw [hcontra] at hd0; exact absurd hd0 (by decide)
    have hhead : part.head? = some d0 := by rw [hcs, hds]; rfl
    have htest : testDigitsDotTwice part = false := by
      rw [hcs]
      unfold testDigitsDotTwice
      simp only [List.span_eq_take_drop, List.takeWhile_append_of_pos hd1,
        List.dropWhile_append_of_pos hd1]
      simp only [List.takeWhile_cons_of_neg (by decide : ¬Char.isDigit '.' = true),
        List.dropWhile_cons_of_neg (by decide : ¬Char.isDigit '.' = true)]
      simp only [List.takeWhile_append_of_pos hd2, List.dropWhile_append_of_pos hd2]
      simp
    exact satisfiesComparator_false_of pv _ htrim htest
      (leadsWith_head_false _ _ (by rw [hhead]; simp [hd0gt]))
      (leadsWith_head_false _ _ (by rw [hhead]; simp [hd0lt]))

/-- Counterexample to C10: the range caret 1.2.3-a space b contains
internal whitespace and its first whitespace-separated clause is in
caret syntax, yet satisfies evaluates the whole range as one caret
range whose anchor has a prerelease containing the space, and the
version 1.2.3 matches it. -/
theorem conjunction_claim_counterexample :
    (trimChars "^1.2.3-a b".data).contains ' ' = true
    ∧ "^1.2.3-a".data ∈ splitWs (trimChars "^1.2.3-a b".data)
    ∧ ("^1.2.3-a".data).head? = some '^'
    ∧ satisfies "1.2.3" "^1.2.3-a b" = true := by
  refine ⟨by decide, by decide, by decide, by decide⟩

/-- C10 amended: when the trimmed range contains a space and does not
begin with a caret or tilde, satisfies evaluates the whitespace-split
clauses through satisfiesComparator only, so a clause in caret, tilde,
wildcard or x-range syntax makes the conjunction match nothing; and
satisfies(v, caret 5.0.0 space <6.0.0) is false for every parseable v
because that range is instead read as a caret range with an unparseable
anchor. A range with internal whitespace that begins with a caret or
tilde escapes clause-wise evaluation (see the counterexample). -/
theorem whitespace_conjunction_semantics (v r : String) (pv : ParsedVersion)
    (hv : parseVersionChars v.data = some pv)
    (hsp : (trimChars r.data).contains ' ' = true)
    (hc1 : (trimChars r.data).head? ≠ some '^')
    (hc2 : (trimChars r.data).head? ≠ some '~') :
    (satisfies v r =
      (splitWs (trimChars r.data)).all (fun part => satisfiesComparator pv part))
    ∧ ((∃ part ∈ splitWs (trimChars r.data),
          part.head? = some '^' ∨ part.head? = some '~' ∨ part = ['*'] ∨
          (xMatchCL part).isSome = true ∨ (xxMatchCL part).isSome = true) →
        satisfies v r = false)
    ∧ satisfies v "^5.0.0 <6.0.0" = false := by
  have heq : satisfies v r =
      (splitWs (trimChars r.data)).all (fun part => satisfiesComparator pv part) := by
    rw [satisfies_eq_trimmed v r pv hv]
    unfold satisfiesTrimmed
    rw [if_neg (by intro he; rw [he] at hsp; exact absurd hsp (by decide)),
      xMatchCL_no_space _ hsp, xxMatchCL_no_space _ hsp,
      if_neg hc1, if_neg hc2, if_pos hsp]
  refine ⟨heq, ?_, ?_⟩
  · rintro ⟨part, hpmem, hbad⟩
    rw [heq]
    simp only [List.all_eq_false]
    refine ⟨part, hpmem, ?_⟩
    rw [satisfiesComparator_bad_clause pv part (mem_splitWs part _ hpmem) hbad]
    simp
  · rw [satisfies_eq_trimmed v _ pv hv]
    rfl

/-- Witness for the amended C10 at a concrete conjunction holding a
caret clause in non-leading position. -/
theorem whitespace_conjunction_semantics_witness :
    satisfies "1.0.0" ">=1.0.0 ^2.0.0" = false :=
  (whitespace_conjunction_semantics "1.0.0" ">=1.0.0 ^2.0.0" ⟨1, 0, 0, none⟩
    rfl (by decide) (by decide) (by decide)).2.1
    ⟨"^2.0.0".data, by decide, Or.inl (by decide)⟩

/-! ## JSON values and the host JSON.parse (lib/check-dependencies.js) -/

/-- JSON value as produced by the host JSON.parse; numeric tokens keep
their raw text, since the classifier only ever tests them for
truthiness and compares them against strings. -/
inductive Json where
  | null : Json
  | bool : Bool → Json
  | num : String → Json
  | str : String → Json
  | arr : List Json → Json
  | obj : List (String × Json) → Json

/-- Key membership in a string-keyed JavaScript object modelled as an
association list. -/
def containsKey {α : Type} (m : List (String × α)) (k : String) : Bool :=
  m.any (fun p => p.1 == k)

/-- Property read on a string-keyed JavaScript object. -/
def lookupKey {α : Type} (m : List (String × α)) (k : String) : Option α :=
  (m.find? (fun p => p.1 == k)).map (fun p => p.2)

/-- JavaScript property assignment: overwrite in place when the key
exists, append otherwise, preserving the insertion order of keys. -/
def setKey {α : Type} (m : List (String × α)) (k : String) (v : α) :
    List (String × α) :=
  if containsKey m k then m.map (fun p => if p.1 == k then (k, v) else p)
  else m ++ [(k, v)]

/-- JavaScript object spread merge of b onto a. -/
def objAssign {α : Type} (a b : List (String × α)) : List (String × α) :=
  b.foldl (fun acc p => setKey acc p.1 p.2) a

/-- The whitespace accepted between JSON tokens. -/
def isJsonWs (c : Char) : Bool :=
  c = ' ' || c = '\t' || c = '\n' || c = '\r'

/-- Skip inter-token whitespace. -/
def skipWsJ (cs : List Char) : List Char :=
  cs.dropWhile isJsonWs

/-- Value of a hexadecimal digit. -/
def hexVal (c : Char) : Option Nat :=
  let n := c.toNat
  if 48 ≤ n && n ≤ 57 then some (n - 48)
  else if 97 ≤ n && n ≤ 102 then some (n - 87)
  else if 65 ≤ n && n ≤ 70 then some (n - 55)
  else none

/-- Body of a JSON string after its opening quote: plain characters,
the short escapes, and unicode escapes with surrogate pairs combined
(an unpaired surrogate becomes the replacement character, the closest
scalar-value rendering of the host's UTF-16 strings). The fuel is
ample, since every step consumes at least one character. -/
def parseJsonStrAux : Nat → List Char → List Char → Option (String × List Char)
  | 0, _, _ => none
  | fuel + 1, cs, acc =>
    match cs with
    | [] => none
    | '"' :: rest => some (String.mk acc.reverse, rest)
    | '\\' :: esc =>
      match esc with
      | '"' :: r => parseJsonStrAux fuel r ('"' :: acc)
      | '\\' :: r => parseJsonStrAux fuel r ('\\' :: acc)
      | '/' :: r => parseJsonStrAux fuel r ('/' :: acc)
      | 'b' :: r => parseJsonStrAux fuel r ('\x08' :: acc)
      | 'f' :: r => parseJsonStrAux fuel r ('\x0c' :: acc)
      | 'n' :: r => parseJsonStrAux fuel r ('\n' :: acc)
      | 'r' :: r => parseJsonStrAux fuel r ('\r' :: acc)
      | 't' :: r => parseJsonStrAux fuel r ('\t' :: acc)
      | 'u' :: h1 :: h2 :: h3 :: h4 :: r =>
        match hexVal h1, hexVal h2, hexVal h3, hexVal h4 with
        | some a, some b, some c, some d =>
          let code := ((a * 16 + b) * 16 + c) * 16 + d
          if 0xd800 ≤ code ∧ code ≤ 0xdbff then
            match r with
            | '\\' :: 'u' :: g1 :: g2 :: g3 :: g4 :: r2 =>
              match hexVal g1, hexVal g2, hexVal g3, hexVal g4 with
              | some e1, some e2, some e3, some e4 =>
                let low := ((e1 * 16 + e2) * 16 + e3) * 16 + e4
                if 0xdc00 ≤ low ∧ low ≤ 0xdfff then
                  parseJsonStrAux fuel r2
                    (Char.ofNat (0x10000 + (code - 0xd800) * 0x400 + (low - 0xdc00)) :: acc)
                else parseJsonStrAux fuel r ('�' :: acc)
              | _, _, _, _ => parseJsonStrAux fuel r ('�' :: acc)
            | _ => parseJsonStrAux fuel r ('�' :: acc)
          else if 0xdc00 ≤ code ∧ code ≤ 0xdfff then
            parseJsonStrAux fuel r ('�' :: acc)
          else parseJsonStrAux fuel r (Char.ofNat code :: acc)
        | _, _, _, _ => none
      | _ => none
    | c :: rest => if c.toNat < 0x20 then none else parseJsonStrAux fuel rest (c :: acc)

/-- JSON string body with the fuel filled in. -/
def parseJsonStr (cs : List Char) : Option (String × List Char) :=
  parseJsonStrAux (cs.length + 1) cs []

/-- Fraction part of a JSON number. -/
def parseJsonFrac : List Char → Option (List Char × List Char)
  | '.' :: r =>
    let ds := r.takeWhile Char.isDigit
    if ds = [] then none else some ('.' :: ds, r.drop ds.length)
  | cs => some ([], cs)

/-- Exponent part of a JSON number. -/
def parseJsonExp : List Char → Option (List Char × List Char)
  | c :: r =>
    if c = 'e' || c = 'E' then
      let sr : List Char × List Char :=
        match r with
        | '+' :: rr => (['+'], rr)
        | '-' :: rr => (['-'], rr)
        | _ => ([], r)
      let ds := sr.2.takeWhile Char.isDigit
      if ds = [] then none else some (c :: (sr.1 ++ ds), sr.2.drop ds.length)
    else some ([], c :: r)
  | [] => some ([], [])

/-- A JSON number token, kept as its raw text. -/
def parseJsonNum (cs : List Char) : Option (Json × List Char) :=
  let sc : List Char × List Char :=
    match cs with
    | '-' :: r => (['-'], r)
    | _ => ([], cs)
  match sc.2 with
  | c :: _ =>
    if c = '0' then
      match parseJsonFrac (sc.2.drop 1) with
      | none => none
      | some (frac, rest2) =>
        match parseJsonExp rest2 with
        | none => none
        | some (ex, rest3) => some (Json.num (String.mk (sc.1 ++ '0' :: (frac ++ ex))), rest3)
    else if c.isDigit then
      let ip := sc.2.takeWhile Char.isDigit
      match parseJsonFrac (sc.2.drop ip.length) with
      | none => none
      | some (frac, rest2) =>
        match parseJsonExp rest2 with
        | none => none
        | some (ex, rest3) => some (Json.num (String.mk (sc.1 ++ ip ++ frac ++ ex)), rest3)
    else none
  | [] => none

mutual

/-- One JSON value, with fuel bounding the nesting. -/
def parseJsonVal : Nat → List Char → Option (Json × List Char)
  | 0, _ => none
  | fuel + 1, cs =>
    match skipWsJ cs with
    | 'n' :: 'u' :: 'l' :: 'l' :: rest => some (Json.null, rest)
    | 't' :: 'r' :: 'u' :: 'e' :: rest => some (Json.bool true, rest)
    | 'f' :: 'a' :: 'l' :: 's' :: 'e' :: rest => some (Json.bool false, rest)
    | '"' :: rest =>
      match parseJsonStr rest with
      | some (s, r) => some (Json.str s, r)
      | none => none
    | '[' :: rest =>
      match skipWsJ rest with
      | ']' :: r => some (Json.arr [], r)
      | other => parseJsonElems fuel other []
    | '{' :: rest =>
      match skipWsJ rest with
      | '}' :: r => some (Json.obj [], r)
      | other => parseJsonMembers fuel other []
    | other => parseJsonNum other

/-- Comma-separated array elements up to the closing bracket. -/
def parseJsonElems : Nat → List Char → List Json → Option (Json × List Char)
  | 0, _, _ => none
  | fuel + 1, cs, acc =>
    match parseJsonVal fuel cs with
    | none => none
    | some (v, rest) =>
      match skipWsJ rest with
      | ',' :: r => parseJsonElems fuel r (acc ++ [v])
      | ']' :: r => some (Json.arr (acc ++ [v]), r)
      | _ => none

/-- Comma-separated object members up to the closing brace; duplicate
keys overwrite in place, as the host does. -/
def parseJsonMembers : Nat → List Char → List (String × Json) →
    Option (Json × List Char)
  | 0, _, _ => none
  | fuel + 1, cs, acc =>
    match skipWsJ cs with
    | '"' :: rest =>
      match parseJsonStr rest with
      | none => none
      | some (k, r1) =>
        match skipWsJ r1 with
        | ':' :: r2 =>
          match parseJsonVal fuel r2 with
          | none => none
          | some (v, r3) =>
            match skipWsJ r3 with
            | ',' :: r4 => parseJsonMembers fuel r4 (setKey acc k v)
            | '}' :: r4 => some (Json.obj (setKey acc k v), r4)
            | _ => none
        | _ => none
    | _ => none

end

/-- The host JSON.parse: parse one value and insist on only trailing
whitespace. The fuel is ample for any nesting the text can express. -/
def jsonParse (s : String) : Option Json :=
  match parseJsonVal (2 * s.data.length + 8) s.data with
  | some (j, rest) => if skipWsJ rest = [] then some j else none
  | none => none

/-- Whether a raw JSON number token denotes zero (the only falsy
number reachable from JSON text). -/
def jsonNumIsZero (raw : String) : Bool :=
  (raw.data.takeWhile (fun c => !(c = 'e' || c = 'E'))).all
    (fun c => !('1' ≤ c && c ≤ '9'))

/-- JavaScript truthiness of a JSON value. -/
def truthyJ : Json → Bool
  | Json.null => false
  | Json.bool b => b
  | Json.num raw => !jsonNumIsZero raw
  | Json.str s => !(s == "")
  | Json.arr _ => true
  | Json.obj _ => true

/-- Property access on a parsed JSON value: objects expose their own
keys, every other non-null value yields undefined. -/
def jsField (j : Json) (k : String) : Option Json :=
  match j with
  | Json.obj kvs => lookupKey kvs k
  | _ => none

/-- Decimal digit characters of a natural number, most significant
first, as JavaScript renders object index keys. -/
def natKeyChars (n : Nat) : List Char :=
  if h : n < 10 then [Char.ofNat (48 + n)]
  else natKeyChars (n / 10) ++ [Char.ofNat (48 + n % 10)]
termination_by n
decreasing_by exact Nat.div_lt_self (by omega) (by omega)

/-- Decimal string key of an index. -/
def natKey (n : Nat) : String :=
  String.mk (natKeyChars n)

/-- JavaScript object spread of a possibly-absent value: objects give
their entries, arrays and strings their indexed elements, everything
else nothing. -/
def spreadJ : Option Json → List (String × Json)
  | none => []
  | some Json.null => []
  | some (Json.obj kvs) => kvs
  | some (Json.arr xs) => xs.enum.map (fun p => (natKey p.1, p.2))
  | some (Json.str s) => s.data.enum.map (fun p => (natKey p.1, Json.str (String.mk [p.2])))
  | some (Json.bool _) => []
  | some (Json.num _) => []

/-- Object.entries of a truthy value, as the lock parsers use it. -/
def jsEntries : Json → List (String × Json)
  | Json.obj kvs => kvs
  | Json.arr xs => xs.enum.map (fun p => (natKey p.1, p.2))
  | Json.str s => s.data.enum.map (fun p => (natKey p.1, Json.str (String.mk [p.2])))
  | _ => []

/-- The merged declared-dependency map of a parsed manifest: spread of
dependencies then devDependencies, exactly as checkDependencies builds
allDeps. -/
def allDepsOf (pkg : Json) : List (String × Json) :=
  objAssign (spreadJ (jsField pkg "dependencies"))
    (spreadJ (jsField pkg "devDependencies"))

/-! ## Lock file parsers (lib/check-dependencies.js) -/

/-- Strip one leading node_modules/ path segment, as the anchored
non-global replace in parsePackageLockJson does. -/
def dropNodeModules (s : String) : String :=
  if leadsWith "node_modules/".data s.data then String.mk (s.data.drop 13) else s

/-- One entry of the v2+ packages object: skip the root entry, read
the version property, record it when truthy; reading a property of a
JSON null entry throws, which aborts the scan of the remaining entries
while keeping what was already recorded (the catch swallows it). -/
def plPackagesStep (acc : List (String × Json) × Bool) (p : String × Json) :
    List (String × Json) × Bool :=
  if acc.2 then acc
  else if p.1 == "" then acc
  else
    match p.2 with
    | Json.null => (acc.1, true)
    | pkg =>
      match jsField pkg "version" with
      | some v => if truthyJ v then (setKey acc.1 (dropNodeModules p.1) v, false) else acc
      | none => acc

/-- One entry of the v1 dependencies object. -/
def plDepsStep (acc : List (String × Json) × Bool) (p : String × Json) :
    List (String × Json) × Bool :=
  if acc.2 then acc
  else
    match p.2 with
    | Json.null => (acc.1, true)
    | pkg =>
      match jsField pkg "version" with
      | some v => if truthyJ v then (setKey acc.1 p.1 v, false) else acc
      | none => acc

/-- Embedding of parsePackageLockJson: JSON-parse the content (an
unparseable document yields the empty mapping), then read the v2+
packages object and the v1 dependencies object when truthy. -/
def parsePackageLockJson (content : String) : List (String × Json) :=
  match jsonParse content with
  | none => []
  | some lock =>
    let st1 : List (String × Json) × Bool :=
      match jsField lock "packages" with
      | some pj => if truthyJ pj then (jsEntries pj).foldl plPackagesStep ([], false)
                   else ([], false)
      | none => ([], false)
    if st1.2 then st1.1
    else
      match jsField lock "dependencies" with
      | some dj => if truthyJ dj then ((jsEntries dj).foldl plDepsStep st1).1 else st1.1
      | none => st1.1

/-- A word character of the declaration-line guard of parseYarnLock. -/
def isWordChar (c : Char) : Bool :=
  c.isAlpha || c.isDigit || c = '_'

/-- The capture of the parseYarnLock declaration-line expression: an
optional opening quote, then one or more characters outside the class
quote, apostrophe, at-sign and comma. -/
def yarnDeclCapture (line : List Char) : Option (List Char) :=
  let inner := fun (cs : List Char) =>
    let cap := cs.takeWhile (fun c => !(c = '"' || c = '\'' || c = '@' || c = ','))
    if cap = [] then none else some cap
  match line with
  | '"' :: rest => inner rest
  | '\'' :: rest => inner rest
  | _ => inner line

/-- Does the line match the version-line guard: one or more whitespace
characters, then the word version. -/
def yarnIsVersionLine (line : List Char) : Bool :=
  match line with
  | c :: _ => isJsWs c && leadsWith "version".data (line.dropWhile isJsWs)
  | [] => false

/-- Try the version-capture expression at one position: the word
version, whitespace, then a non-empty double-quoted capture. -/
def yarnVersionAt (cs : List Char) : Option (List Char) :=
  if leadsWith "version".data cs then
    let rest := cs.drop 7
    let ws := rest.takeWhile isJsWs
    if ws = [] then none
    else
      match rest.dropWhile isJsWs with
      | '"' :: r2 =>
        let cap := r2.takeWhile (fun c => !(c = '"'))
        if cap = [] then none
        else
          match r2.dropWhile (fun c => !(c = '"')) with
          | '"' :: _ => some cap
          | _ => none
      | _ => none
  else none

/-- Leftmost match of the unanchored version-capture expression. -/
def yarnVersionSearch : List Char → Option (List Char)
  | [] => none
  | c :: cs =>
    match yarnVersionAt (c :: cs) with
    | some cap => some cap
    | none => yarnVersionSearch cs

/-- One line of parseYarnLock: a line opening with a quote, word
character or at-sign updates the current-package context when its
capture succeeds; a version line then records the version for the
current package and clears the context. -/
def yarnLineStep (acc : List (String × Json) × Option (List Char)) (line : List Char) :
    List (String × Json) × Option (List Char) :=
  let current1 :=
    match line.head? with
    | some c =>
      if c = '"' || isWordChar c || c = '@' then
        match yarnDeclCapture line with
        | some cap => some cap
        | none => acc.2
      else acc.2
    | none => acc.2
  if yarnIsVersionLine line then
    match current1 with
    | some name =>
      match yarnVersionSearch line with
      | some ver => (setKey acc.1 (String.mk name) (Json.str (String.mk ver)), none)
      | none => (acc.1, current1)
    | none => (acc.1, current1)
  else (acc.1, current1)

/-- Split on every newline character, keeping empty pieces, as the
JavaScript split with a single-character separator does. -/
def splitOnNl : List Char → List (List Char)
  | [] => [[]]
  | '\n' :: rest => [] :: splitOnNl rest
  | c :: rest =>
    match splitOnNl rest with
    | [] => [[c]]
    | l :: ls => (c :: l) :: ls

/-- Embedding of parseYarnLock: split on newlines and scan. -/
def parseYarnLock (content : String) : List (String × Json) :=
  ((splitOnNl content.data).foldl yarnLineStep ([], none)).1

/-- Try the pnpm entry expression with the first capture of length i:
the first capture must be non-empty and colon-free, then an at-sign, a
digit-led colon-free version and the terminating colon. -/
def pnpmTryAt (body : List Char) (i : Nat) : Option (List Char × List Char) :=
  let c1 := body.take i
  if c1 = [] || c1.any (fun c => c = ':') then none
  else
    match body.drop i with
    | '@' :: d :: rest =>
      if d.isDigit then
        let verTail := rest.takeWhile (fun c => !(c = ':'))
        match rest.dropWhile (fun c => !(c = ':')) with
        | ':' :: _ => some (c1, d :: verTail)
        | _ => none
      else none
    | _ => none

/-- Greedy backtracking of the first capture: the longest split wins,
as the greedy character class of the source expression does. -/
def pnpmBody (body : List Char) : Option (List Char × List Char) :=
  (List.range (body.length + 1)).reverse.findSome? (pnpmTryAt body)

/-- One line of parsePnpmLock: leading whitespace, a slash, then the
name-at-version-colon entry. -/
def pnpmLineDecl (line : List Char) : Option (List Char × List Char) :=
  match line with
  | c :: _ =>
    if isJsWs c then
      match line.dropWhile isJsWs with
      | '/' :: body => pnpmBody body
      | _ => none
    else none
  | [] => none

/-- Embedding of parsePnpmLock. -/
def parsePnpmLock (content : String) : List (String × Json) :=
  (splitOnNl content.data).foldl
    (fun versions line =>
      match pnpmLineDecl line with
      | some nv => setKey versions (String.mk nv.1) (Json.str (String.mk nv.2))
      | none => versions) []

/-! ## The dependency classifier (lib/check-dependencies.js) -/

/-- One known-bad list entry. -/
structure BadEntry where
  package : String
  version : String

/-- One supplied lock file, tagged by its format. -/
structure LockFile where
  type : String
  content : String

/-- A vulnerability finding. -/
structure Finding where
  package : String
  declared_version : Json
  malicious_version : String
  match_type : String
  severity : String

/-- An affected-package entry; manifest-derived entries carry no
match_type, lock-derived ones do. -/
structure AffectedEntry where
  package : String
  declared_version : Json
  malicious_versions : List String
  match_type : Option String

/-- The two result lists of checkDependencies. -/
structure ScanResult where
  vulnerabilities : List Finding
  affectedPackages : List AffectedEntry

/-- The mutable state of one checkDependencies invocation: the two
result lists and the two deduplication sets. -/
structure ScanState where
  vulnerabilities : List Finding
  affectedPackages : List AffectedEntry
  foundVulnerabilities : List String
  foundAffected : List String

/-- The state every invocation starts from. -/
def emptyScanState : ScanState := ⟨[], [], [], []⟩

/-- The deduplication key name at version. -/
def vulnKey (name version : String) : String :=
  name ++ "@" ++ version

/-- The call matchesVersion(depVersion, mal.version) with a manifest
value: satisfies first parses the malicious version and returns false
when it does not parse; only then does it trim the declared range, so
a non-string declared value throws there (surfacing through the catch
of checkDependencies). -/
def matchesVersionJ (declared : Json) (malVersion : String) : Except String Bool :=
  match parseVersionChars malVersion.data with
  | none => Except.ok false
  | some pv =>
    match declared with
    | Json.str r => Except.ok (satisfiesAux pv r.data)
    | _ => Except.error "Failed to parse package.json"

/-- Strict equality of a locked value against a known-bad version
string. -/
def jsonStrEq (j : Json) (s : String) : Bool :=
  match j with
  | Json.str t => t == s
  | _ => false

/-- One known-bad entry against one declared dependency: push a
deduplicated direct/high finding on a range match and raise the
per-dependency flag. -/
def manifestMalStep (depName : String) (depVersion : Json)
    (acc : ScanState × Bool) (m : BadEntry) : Except String (ScanState × Bool) :=
  match matchesVersionJ depVersion m.version with
  | Except.error e => Except.error e
  | Except.ok matched =>
    if matched then
      let key := vulnKey depName m.version
      if acc.1.foundVulnerabilities.contains key then Except.ok acc
      else Except.ok
        ({ acc.1 with
            vulnerabilities := acc.1.vulnerabilities ++
              [⟨depName, depVersion, m.version, "direct", "high"⟩],
            foundVulnerabilities := acc.1.foundVulnerabilities ++ [key] }, true)
    else Except.ok acc

/-- One declared dependency of the manifest: try every known-bad entry
of the same package, then record an affected entry when nothing
matched, the package is on the known-bad list and no affected entry
exists yet. -/
def processManifestDep (malicious : List BadEntry) (st : ScanState)
    (dep : String × Json) : Except String ScanState :=
  match (malicious.filter (fun m => m.package == dep.1)).foldlM
      (manifestMalStep dep.1 dep.2) (st, false) with
  | Except.error e => Except.error e
  | Except.ok (st1, hasVuln) =>
    if !hasVuln && malicious.any (fun m => m.package == dep.1) &&
        !st1.foundAffected.contains dep.1 then
      Except.ok
        { st1 with
            affectedPackages := st1.affectedPackages ++
              [⟨dep.1, dep.2,
                (malicious.filter (fun m => m.package == dep.1)).map (fun m => m.version),
                none⟩],
            foundAffected := st1.foundAffected ++ [dep.1] }
    else Except.ok st1

/-- One exactly-matching known-bad entry for a locked version: push a
deduplicated finding whose type and severity follow directness. -/
def lockMalStep (depName : String) (lockedVersion : Json) (isDirect : Bool)
    (st : ScanState) (m : BadEntry) : ScanState :=
  let key := vulnKey depName m.version
  if st.foundVulnerabilities.contains key then st
  else
    { st with
        vulnerabilities := st.vulnerabilities ++
          [⟨depName, lockedVersion, m.version,
            if isDirect then "direct" else "transitive",
            if isDirect then "high" else "medium"⟩],
        foundVulnerabilities := st.foundVulnerabilities ++ [key] }

/-- One entry of the merged locked-version map. -/
def processLockEntry (malicious : List BadEntry) (allDeps : List (String × Json))
    (st : ScanState) (entry : String × Json) : ScanState :=
  let mals := malicious.filter
    (fun m => m.package == entry.1 && jsonStrEq entry.2 m.version)
  let isDirect := containsKey allDeps entry.1
  if !mals.isEmpty then mals.foldl (lockMalStep entry.1 entry.2 isDirect) st
  else if malicious.any (fun m => m.package == entry.1) &&
      !st.foundAffected.contains entry.1 then
    { st with
        affectedPackages := st.affectedPackages ++
          [⟨entry.1, entry.2,
            (malicious.filter (fun m => m.package == entry.1)).map (fun m => m.version),
            some (if isDirect then "direct" else "transitive")⟩],
        foundAffected := st.foundAffected ++ [entry.1] }
  else st

/-- Dispatch one lock file to its parser by format tag; an unknown tag
contributes nothing. -/
def parseLockFile (lf : LockFile) : List (String × Json) :=
  if lf.type == "package-lock.json" then parsePackageLockJson lf.content
  else if lf.type == "yarn.lock" then parseYarnLock lf.content
  else if lf.type == "pnpm-lock.yaml" then parsePnpmLock lf.content
  else []

/-- The merged locked-version map, built left-to-right over the lock
files with object-spread overwrite semantics. -/
def mergeLockedVersions (lfs : List LockFile) : List (String × Json) :=
  lfs.foldl (fun acc lf => objAssign acc (parseLockFile lf)) []

/-- Is the parsed manifest the JSON null value, whose dependency-group
member access throws in the source. -/
def jsonIsNull : Json → Bool
  | Json.null => true
  | _ => false

/-- Embedding of checkDependencies(packageJsonContent, lockFiles,
maliciousPackages). The JavaScript try/catch around the whole body is
the Except error channel: a manifest that does not JSON-parse, a
manifest parsing to null (whose dependency-group access throws), and a
non-string declared version reaching the matcher all surface as the
single descriptive parse fault, and on that path no results exist. -/
def checkDependencies (manifest : String) (lockFiles : Option (List LockFile))
    (malicious : List BadEntry) : Except String ScanResult :=
  match jsonParse manifest with
  | none => Except.error "Failed to parse package.json"
  | some pkg =>
    if jsonIsNull pkg then Except.error "Failed to parse package.json"
    else
    let allDeps := allDepsOf pkg
    match allDeps.foldlM (processManifestDep malicious) emptyScanState with
    | Except.error e => Except.error e
    | Except.ok st1 =>
      let st2 :=
        match lockFiles with
        | none => st1
        | some lfs =>
          (mergeLockedVersions lfs).foldl (processLockEntry malicious allDeps) st1
      Except.ok ⟨st2.vulnerabilities, st2.affectedPackages⟩

/-! ## Claim C5 -/

/-- Is a JSON value an object. -/
def isObjJ : Json → Bool
  | Json.obj _ => true
  | _ => false

/-- C5: the lock-file sub-parsers recover from malformed input. All
three sub-parsers are total functions of the input text in this
embedding, mirroring the catch-all in the source that never lets an
exception past the parser boundary; the package-lock parser, the only
one whose format has a parse-failure notion, returns the empty mapping
whenever the document does not JSON-parse, and likewise when it parses
to a non-object (so neither schema variant applies). The yarn and pnpm
parsers are line scanners for which every text is scannable, so they
have no failure path at all. -/
theorem lock_parsers_tolerate_malformed_input (content : String) :
    (jsonParse content = none → parsePackageLockJson content = []) ∧
    (∀ j, jsonParse content = some j → isObjJ j = false →
      parsePackageLockJson content = []) := by
  constructor
  · intro h
    unfold parsePackageLockJson
    rw [h]
  · intro j hj hobj
    unfold parsePackageLockJson
    rw [hj]
    cases j <;> simp_all [isObjJ, jsField]

/-- Witness for C5 at two concrete malformed lock files. -/
theorem lock_parsers_tolerate_malformed_input_witness :
    parsePackageLockJson "\x7b not json ]" = [] ∧ parsePackageLockJson "[1, 2]" = [] :=
  ⟨(lock_parsers_tolerate_malformed_input "\x7b not json ]").1 rfl,
   (lock_parsers_tolerate_malformed_input "[1, 2]").2 (Json.arr [Json.num "1", Json.num "2"])
     rfl rfl⟩

/-! ## Association list lemmas -/

lemma containsKey_false_lookupKey_none {α : Type} (m : List (String × α)) (k : String)
    (h : containsKey m k = false) : lookupKey m k = none := by
  unfold containsKey at h
  unfold lookupKey
  rw [List.find?_eq_none.mpr]
  · rfl
  · intro p hp
    simp only [List.any_eq_false] at h
    simpa using h p hp

lemma lookupKey_map_keyReplace {α : Type} (k k2 : String) (v : α)
    (m : List (String × α)) (hne : ¬ k2 = k) :
    lookupKey (m.map (fun p => if p.1 == k then (k, v) else p)) k2 = lookupKey m k2 := by
  induction m with
  | nil => rfl
  | cons p m ih =>
    by_cases hpk : p.1 == k
    · have hp1 : p.1 = k := by simpa using hpk
      simp only [List.map_cons, if_pos hpk]
      unfold lookupKey
      rw [List.find?_cons_of_neg _ (by simp [hp1]; intro hc; exact absurd hc.symm hne),
        List.find?_cons_of_neg _ (by simp; intro hc; exact absurd (hp1 ▸ hc).symm hne)]
      exact ih
    · simp only [List.map_cons, if_neg hpk]
      unfold lookupKey
      by_cases hp2 : p.1 == k2
      · rw [List.find?_cons_of_pos _ (by simpa using hp2),
          List.find?_cons_of_pos _ (by simpa using hp2)]
      · rw [List.find?_cons_of_neg _ (by simpa using hp2),
          List.find?_cons_of_neg _ (by simpa using hp2)]
        exact ih

lemma lookupKey_map_keyReplace_self {α : Type} (k : String) (v : α)
    (m : List (String × α)) (hc : containsKey m k = true) :
    lookupKey (m.map (fun p => if p.1 == k then (k, v) else p)) k = some v := by
  induction m with
  | nil => simp [containsKey] at hc
  | cons p m ih =>
    by_cases hpk : p.1 == k
    · simp only [List.map_cons, if_pos hpk]
      unfold lookupKey
      rw [List.find?_cons_of_pos _ (by simp)]
      rfl
    · simp only [List.map_cons, if_neg hpk]
      unfold lookupKey
      rw [List.find?_cons_of_neg _ (by simpa using hpk)]
      apply ih
      unfold containsKey at hc ⊢
      simp only [List.any_cons, Bool.or_eq_true] at hc
      rcases hc with hc | hc
      · exact absurd hc hpk
      · exact hc

lemma lookupKey_setKey {α : Type} (m : List (String × α)) (k k2 : String) (v : α) :
    lookupKey (setKey m k v) k2 = if k2 = k then some v else lookupKey m k2 := by
  unfold setKey
  by_cases hc : containsKey m k = true
  · rw [if_pos hc]
    by_cases hk : k2 = k
    · subst hk
      rw [if_pos rfl]
      exact lookupKey_map_keyReplace_self k2 v m hc
    · rw [if_neg hk]
      exact lookupKey_map_keyReplace k k2 v m hk
  · rw [if_neg hc]
    by_cases hk : k2 = k
    · subst hk
      rw [if_pos rfl]
      have hnone : List.find? (fun p => p.1 == k2) m = none := by
        have := containsKey_false_lookupKey_none m k2 (by simpa using hc)
        unfold lookupKey at this
        cases hf : List.find? (fun p => p.1 == k2) m
        · rfl
        · rw [hf] at this; simp at this
      unfold lookupKey
      rw [List.find?_append, hnone]
      simp
    · rw [if_neg hk]
      unfold lookupKey
      rw [List.find?_append]
      have : List.find? (fun p => p.1 == k2) [(k, v)] = none := by
        simp
        intro hc2
        exact absurd hc2.symm hk
      rw [this]
      cases List.find? (fun p => p.1 == k2) m <;> rfl

lemma setKey_keys {α : Type} (m : List (String × α)) (k : String) (v : α) :
    (setKey m k v).map Prod.fst =
      if containsKey m k then m.map Prod.fst else m.map Prod.fst ++ [k] := by
  unfold setKey
  split_ifs with hc
  · rw [List.map_map]
    apply List.map_congr_left
    intro p hp
    by_cases hpk : p.1 == k
    · simp only [Function.comp_apply, if_pos hpk]
      exact (by simpa using hpk : p.1 = k).symm
    · have hne : ¬ p.1 = k := by simpa using hpk
      simp [Function.comp_apply, hne]
  · simp

lemma setKey_nodupKeys {α : Type} (m : List (String × α)) (k : String) (v : α)
    (h : (m.map Prod.fst).Nodup) : ((setKey m k v).map Prod.fst).Nodup := by
  rw [setKey_keys]
  split_ifs with hc
  · exact h
  · rw [List.nodup_append]
    refine ⟨h, List.nodup_singleton k, ?_⟩
    intro x hx hk
    simp only [List.mem_singleton] at hk
    subst hk
    obtain ⟨p, hp, hpk⟩ := List.mem_map.mp hx
    unfold containsKey at hc
    simp only [List.any_eq_true, not_exists] at hc
    have := hc p
    simp only [hp, hpk] at this
    simp at this

lemma setKey_mem {α : Type} (m : List (String × α)) (k : String) (v : α)
    (p : String × α) (hp : p ∈ setKey m k v) : p = (k, v) ∨ p ∈ m := by
  unfold setKey at hp
  split_ifs at hp with hc
  · obtain ⟨q, hq, hqe⟩ := List.mem_map.mp hp
    by_cases hqk : q.1 == k
    · rw [if_pos hqk] at hqe
      exact Or.inl hqe.symm
    · rw [if_neg hqk] at hqe
      exact Or.inr (hqe ▸ hq)
  · rcases List.mem_append.mp hp with h | h
    · exact Or.inr h
    · simp only [List.mem_singleton] at h
      exact Or.inl h

lemma foldl_preserves {σ α : Type} (step : σ → α → σ) (P : σ → Prop) :
    ∀ (l : List α) (s : σ), P s → (∀ a ∈ l, ∀ s1, P s1 → P (step s1 a)) →
      P (l.foldl step s)
  | [], s, hs, _ => hs
  | a :: l, s, hs, hstep =>
    foldl_preserves step P l (step s a) (hstep a (by simp) s hs)
      (fun b hb s1 h1 => hstep b (by simp [hb]) s1 h1)

lemma nodupKeys_parsePackageLockJson (content : String) :
    ((parsePackageLockJson content).map Prod.fst).Nodup := by
  have hstep1 : ∀ (p : String × Json) (acc : List (String × Json) × Bool),
      (acc.1.map Prod.fst).Nodup → (((plPackagesStep acc p).1).map Prod.fst).Nodup := by
    intro p acc h
    unfold plPackagesStep
    repeat' split
    all_goals first | exact h | exact setKey_nodupKeys _ _ _ h
  have hstep2 : ∀ (p : String × Json) (acc : List (String × Json) × Bool),
      (acc.1.map Prod.fst).Nodup → (((plDepsStep acc p).1).map Prod.fst).Nodup := by
    intro p acc h
    unfold plDepsStep
    repeat' split
    all_goals first | exact h | exact setKey_nodupKeys _ _ _ h
  unfold parsePackageLockJson
  cases hj : jsonParse content with
  | none => simp
  | some lock =>
    simp only []
    have hnodup1 : ∀ pjo : Option Json,
        (((match pjo with
          | some pj => if truthyJ pj then (jsEntries pj).foldl plPackagesStep ([], false)
                       else (([] : List (String × Json)), false)
          | none => (([] : List (String × Json)), false)) :
            List (String × Json) × Bool).1.map Prod.fst).Nodup := by
      intro pjo
      cases pjo with
      | none => simp
      | some pj =>
        simp only []
        split
        · exact foldl_preserves plPackagesStep
            (fun st => (st.1.map Prod.fst).Nodup) _ ([], false) (by simp)
            (fun a _ s1 hsa => hstep1 a s1 hsa)
        · simp
    split
    · exact hnodup1 _
    · split
      · split
        · exact foldl_preserves plDepsStep
            (fun st => (st.1.map Prod.fst).Nodup) _ _ (hnodup1 _)
            (fun a _ s1 hsa => hstep2 a s1 hsa)
        · exact hnodup1 _
      · exact hnodup1 _

lemma nodupKeys_parseYarnLock (content : String) :
    ((parseYarnLock content).map Prod.fst).Nodup := by
  unfold parseYarnLock
  refine foldl_preserves yarnLineStep
    (fun st => (st.1.map Prod.fst).Nodup) _ ([], none) (by simp) ?_
  intro line _ acc h
  unfold yarnLineStep
  simp only []
  repeat' split
  all_goals first | exact h | exact setKey_nodupKeys _ _ _ h

lemma nodupKeys_parsePnpmLock (content : String) :
    ((parsePnpmLock content).map Prod.fst).Nodup := by
  unfold parsePnpmLock
  refine foldl_preserves _ (fun st : List (String × Json) => (st.map Prod.fst).Nodup)
    _ [] (by simp) ?_
  intro line _ acc h
  split
  · exact setKey_nodupKeys _ _ _ h
  · exact h

lemma nodupKeys_parseLockFile (lf : LockFile) :
    ((parseLockFile lf).map Prod.fst).Nodup := by
  unfold parseLockFile
  split_ifs with h1 h2 h3
  · exact nodupKeys_parsePackageLockJson _
  · exact nodupKeys_parseYarnLock _
  · exact nodupKeys_parsePnpmLock _
  · simp

lemma lookupKey_objAssign {α : Type} (a b : List (String × α)) (k : String)
    (hb : (b.map Prod.fst).Nodup) :
    lookupKey (objAssign a b) k = (lookupKey b k).or (lookupKey a k) := by
  induction b generalizing a with
  | nil => simp [objAssign, lookupKey]
  | cons p b ih =>
    have hstep : objAssign a (p :: b) = objAssign (setKey a p.1 p.2) b := rfl
    rw [hstep, ih _ (by simpa using hb.of_cons), lookupKey_setKey]
    by_cases hk : k = p.1
    · subst hk
      have hnb : containsKey b p.1 = false := by
        simp only [List.map_cons, List.nodup_cons] at hb
        unfold containsKey
        simp only [List.any_eq_false]
        intro q hq
        simp only [Bool.not_eq_true, beq_eq_false_iff_ne]
        intro hqe
        exact hb.1 (hqe ▸ List.mem_map_of_mem Prod.fst hq)
      rw [containsKey_false_lookupKey_none b p.1 hnb]
      unfold lookupKey
      rw [List.find?_cons_of_pos _ (by simp)]
      simp
    · unfold lookupKey
      rw [List.find?_cons_of_neg _ (by simp; intro hc; exact absurd hc.symm hk)]
      rw [if_neg hk]

/-! ## Claim C7 -/

/-- C7: the merged locked-version map is last-write-wins over the lock
files in input order: looking a package name up in the merged map is
looking it up in the latest lock file (of any recognized format) that
resolves it. -/
theorem merged_lock_map_last_wins (lfs : List LockFile) (name : String) :
    lookupKey (mergeLockedVersions lfs) name =
      lfs.reverse.findSome? (fun lf => lookupKey (parseLockFile lf) name) := by
  induction lfs using List.reverseRecOn with
  | nil => simp [mergeLockedVersions, lookupKey]
  | append_singleton lfs lf ih =>
    have hm : mergeLockedVersions (lfs ++ [lf]) =
        objAssign (mergeLockedVersions lfs) (parseLockFile lf) := by
      unfold mergeLockedVersions
      rw [List.foldl_append]
      rfl
    rw [hm, lookupKey_objAssign _ _ _ (nodupKeys_parseLockFile lf), ih,
      List.reverse_append]
    simp only [List.reverse_singleton, List.singleton_append, List.findSome?_cons]
    cases lookupKey (parseLockFile lf) name <;> rfl

/-! ## Claim C9 -/

lemma yarnDeclCapture_no_at (line cap : List Char)
    (h : yarnDeclCapture line = some cap) : ∀ c ∈ cap, ¬ c = '@' := by
  unfold yarnDeclCapture at h
  have inner : ∀ cs : List Char,
      (let capw := cs.takeWhile (fun c => !(c = '"' || c = '\'' || c = '@' || c = ','));
        if capw = [] then none else some capw) = some cap →
      ∀ c ∈ cap, ¬ c = '@' := by
    intro cs hcs c hc
    simp only [] at hcs
    split_ifs at hcs with he
    have hcap := Option.some.inj hcs
    subst hcap
    have := List.mem_takeWhile_imp hc
    intro hat
    subst hat
    simp at this
  split at h
  · exact inner _ h
  · exact inner _ h
  · exact inner _ h

lemma contains_eq_false_of_not_mem {a : Char} {l : List Char}
    (h : ∀ c ∈ l, ¬ c = a) : l.contains a = false := by
  cases hc : l.contains a with
  | false => rfl
  | true =>
    have : a ∈ l := by simpa using hc
    exact absurd rfl (h a this)

/-- C9: the mapping produced by the yarn.lock sub-parser never holds a
key containing an at-sign: the declaration-line capture stops before
any at-sign, so a scoped package name (which begins with an at-sign)
never establishes the current-package context and no key with an
at-sign is ever recorded, hence the resolved version of a scoped
package is never present in the output. -/
theorem yarn_lock_no_scoped_keys (content : String) :
    ∀ k ∈ (parseYarnLock content).map Prod.fst, k.data.contains '@' = false := by
  unfold parseYarnLock
  have hmain := foldl_preserves yarnLineStep
    (fun st : List (String × Json) × Option (List Char) =>
      (∀ k ∈ st.1.map Prod.fst, k.data.contains '@' = false) ∧
      (∀ cs, st.2 = some cs → ∀ c ∈ cs, ¬ c = '@'))
    (splitOnNl content.data) ([], none)
    (by constructor
        · intro k hk; simp at hk
        · intro cs hcs; simp at hcs)
  refine (hmain ?_).1
  intro line _ acc hacc
  unfold yarnLineStep
  simp only []
  set cur1 := (match line.head? with
    | some c =>
      if c = '"' || isWordChar c || c = '@' then
        (match yarnDeclCapture line with | some cap => some cap | none => acc.2)
      else acc.2
    | none => acc.2) with hcur
  have hcurP : ∀ cs, cur1 = some cs → ∀ c ∈ cs, ¬ c = '@' := by
    intro cs hcs
    rw [hcur] at hcs
    split at hcs
    · split_ifs at hcs
      · split at hcs
        · exact (Option.some.inj hcs) ▸ yarnDeclCapture_no_at line _ (by assumption)
        · exact hacc.2 cs hcs
      · exact hacc.2 cs hcs
    · exact hacc.2 cs hcs
  split
  · cases hc : cur1 with
    | none =>
      exact ⟨hacc.1, fun cs hcs => hcurP cs (hc ▸ hcs)⟩
    | some name =>
      cases hs : yarnVersionSearch line with
      | none =>
        exact ⟨hacc.1, fun cs hcs => hcurP cs (hc ▸ hcs)⟩
      | some ver =>
        constructor
        · intro k hk
          obtain ⟨p, hp, hpe⟩ := List.mem_map.mp hk
          rcases setKey_mem _ _ _ _ hp with he | hm
          · subst hpe
            rw [he]
            exact contains_eq_false_of_not_mem (hcurP name hc)
          · exact hpe ▸ hacc.1 p.1 (List.mem_map_of_mem Prod.fst hm)
        · intro cs hcs
          simp at hcs
  · exact ⟨hacc.1, fun cs hcs => hcurP cs hcs⟩

/-- Witness for C9 on a concrete yarn.lock text. -/
theorem yarn_lock_no_scoped_keys_witness :
    ("p" : String).data.contains '@' = false :=
  yarn_lock_no_scoped_keys "p@^6.0.0:\n  version \"5.11.3\"\n" "p" (by decide)

/-! ## Claim C4 -/

/-- Is a JSON value a string. -/
def isStrJ : Json → Bool
  | Json.str _ => true
  | _ => false

/-- Counterexample to C4: the manifest text null is a well-formed JSON
document, yet checkDependencies signals the parse fault on it (reading
the dependency groups of null throws), so the fault is not signalled
only for manifests that fail to parse. -/
theorem manifest_null_counterexample :
    jsonParse "null" = some Json.null ∧
    checkDependencies "null" none [] = Except.error "Failed to parse package.json" :=
  ⟨rfl, rfl⟩

lemma foldlM_except_all_ok {σ α : Type} (step : σ → α → Except String σ) :
    ∀ (l : List α) (s : σ),
      (∀ a ∈ l, ∀ s1, ∃ s2, step s1 a = Except.ok s2) →
      ∃ out, l.foldlM step s = Except.ok out
  | [], s, _ => ⟨s, rfl⟩
  | a :: l, s, h => by
    obtain ⟨s2, hs2⟩ := h a (by simp) s
    rw [List.foldlM_cons, hs2]
    exact foldlM_except_all_ok step l s2 (fun b hb s1 => h b (by simp [hb]) s1)

lemma manifestMalStep_ok (depName : String) (depVersion : Json)
    (hstr : isStrJ depVersion = true) (acc : ScanState × Bool) (m : BadEntry) :
    ∃ acc2, manifestMalStep depName depVersion acc m = Except.ok acc2 := by
  unfold manifestMalStep matchesVersionJ
  cases hp : parseVersionChars m.version.data with
  | none => exact ⟨acc, rfl⟩
  | some pv =>
    cases depVersion with
    | str s =>
      simp only []
      split_ifs <;> exact ⟨_, rfl⟩
    | null => simp [isStrJ] at hstr
    | bool b => simp [isStrJ] at hstr
    | num n => simp [isStrJ] at hstr
    | arr xs => simp [isStrJ] at hstr
    | obj kvs => simp [isStrJ] at hstr

lemma processManifestDep_ok (malicious : List BadEntry) (st : ScanState)
    (dep : String × Json) (hstr : isStrJ dep.2 = true) :
    ∃ st2, processManifestDep malicious st dep = Except.ok st2 := by
  unfold processManifestDep
  obtain ⟨out, hout⟩ := foldlM_except_all_ok (manifestMalStep dep.1 dep.2)
    (malicious.filter (fun m => m.package == dep.1)) (st, false)
    (fun m _ acc => manifestMalStep_ok dep.1 dep.2 hstr acc m)
  obtain ⟨st1, hv⟩ := out
  rw [hout]
  simp only []
  split_ifs <;> exact ⟨_, rfl⟩

/-- C4 amended: for well-typed inputs whose declared dependency values
are strings, checkDependencies signals its single descriptive parse
fault exactly when the manifest text fails to parse as JSON or parses
to the JSON value null (whose dependency-group access throws); on the
fatal path the Except error carries no result lists at all, so the
fault is atomic by construction. -/
theorem manifest_fault_condition (m : String) (lfs : Option (List LockFile))
    (bad : List BadEntry)
    (hstr : ∀ pkg, jsonParse m = some pkg → ∀ p ∈ allDepsOf pkg, isStrJ p.2 = true) :
    (∃ e, checkDependencies m lfs bad = Except.error e) ↔
      (jsonParse m = none ∨ jsonParse m = some Json.null) := by
  constructor
  · intro ⟨e, he⟩
    by_contra hno
    push_neg at hno
    obtain ⟨hn, hnull⟩ := hno
    cases hj : jsonParse m with
    | none => exact hn hj
    | some pkg =>
      have hpknn : jsonIsNull pkg = false := by
        cases pkg with
        | null => exact absurd hj hnull
        | bool b => rfl
        | num n => rfl
        | str s => rfl
        | arr xs => rfl
        | obj kvs => rfl
      unfold checkDependencies at he
      rw [hj] at he
      simp only [hpknn, Bool.false_eq_true, if_false] at he
      obtain ⟨out, hout⟩ := foldlM_except_all_ok (processManifestDep bad)
        (allDepsOf pkg) emptyScanState
        (fun dep hdep s1 => processManifestDep_ok bad s1 dep (hstr pkg hj dep hdep))
      rw [hout] at he
      cases he
  · intro h
    rcases h with h | h
    · unfold checkDependencies
      rw [h]
      exact ⟨_, rfl⟩
    · unfold checkDependencies
      rw [h]
      exact ⟨_, rfl⟩

/-- Witness for the amended C4 at the concrete manifest null. -/
theorem manifest_fault_condition_witness :
    ∃ e, checkDependencies "null" none [] = Except.error e :=
  (manifest_fault_condition "null" none []
    (by
      intro pkg h
      rw [show jsonParse "null" = some Json.null from rfl] at h
      cases h
      intro p hp
      simp [allDepsOf, jsField, spreadJ, objAssign] at hp)).mpr (Or.inr rfl)

/-! ## Claim C8 -/

/-- The C8 property of one finding: severity high exactly for the
direct match type and medium exactly for the transitive one, the
match type is direct exactly when the package is in the manifest's
merged dependency/dev-dependency set, and those are the only two match
types (manifest-derived findings always have their package in that set
and are direct; lock-derived ones are direct exactly on membership). -/
def severityInv (allDeps : List (String × Json)) (f : Finding) : Prop :=
  (f.severity = "high" ↔ f.match_type = "direct") ∧
  (f.severity = "medium" ↔ f.match_type = "transitive") ∧
  (f.match_type = "direct" ↔ containsKey allDeps f.package = true) ∧
  (f.match_type = "direct" ∨ f.match_type = "transitive")

lemma severityInv_of_direct (allDeps : List (String × Json)) (pkgName : String)
    (dv : Json) (mv : String) (hpk : containsKey allDeps pkgName = true) :
    severityInv allDeps ⟨pkgName, dv, mv, "direct", "high"⟩ := by
  refine ⟨?_, ?_, ?_, ?_⟩
  · show ("high" : String) = "high" ↔ ("direct" : String) = "direct"
    simp
  · show ("high" : String) = "medium" ↔ ("direct" : String) = "transitive"
    constructor
    · intro h; exact absurd h (by decide)
    · intro h; exact absurd h (by decide)
  · show ("direct" : String) = "direct" ↔ containsKey allDeps pkgName = true
    simp [hpk]
  · exact Or.inl rfl

lemma severityInv_of_transitive (allDeps : List (String × Json)) (pkgName : String)
    (dv : Json) (mv : String) (hpk : containsKey allDeps pkgName = false) :
    severityInv allDeps ⟨pkgName, dv, mv, "transitive", "medium"⟩ := by
  refine ⟨?_, ?_, ?_, ?_⟩
  · show ("medium" : String) = "high" ↔ ("transitive" : String) = "direct"
    constructor
    · intro h; exact absurd h (by decide)
    · intro h; exact absurd h (by decide)
  · show ("medium" : String) = "medium" ↔ ("transitive" : String) = "transitive"
    simp
  · show ("transitive" : String) = "direct" ↔ containsKey allDeps pkgName = true
    constructor
    · intro h; exact absurd h (by decide)
    · intro h; rw [hpk] at h; exact absurd h (by decide)
  · exact Or.inr rfl

lemma foldlM_except_inv {σ α : Type} (step : σ → α → Except String σ) (P : σ → Prop) :
    ∀ (l : List α) (s : σ), P s →
      (∀ a ∈ l, ∀ s1 s2, P s1 → step s1 a = Except.ok s2 → P s2) →
      ∀ out, l.foldlM step s = Except.ok out → P out
  | [], s, hs, _, out, hout => by
    simp only [List.foldlM_nil] at hout
    cases hout
    exact hs
  | a :: l, s, hs, hstep, out, hout => by
    rw [List.foldlM_cons] at hout
    cases hsa : step s a with
    | error e => rw [hsa] at hout; simp [Bind.bind, Except.bind] at hout
    | ok s2 =>
      rw [hsa] at hout
      simp only [Bind.bind, Except.bind] at hout
      exact foldlM_except_inv step P l s2 (hstep a (by simp) s s2 hs hsa)
        (fun b hb => hstep b (by simp [hb])) out hout

lemma manifestMalStep_sevInv (allDeps : List (String × Json)) (depName : String)
    (depVersion : Json) (hdep : containsKey allDeps depName = true)
    (mE : BadEntry) (acc acc2 : ScanState × Bool)
    (hP : ∀ f ∈ acc.1.vulnerabilities, severityInv allDeps f)
    (hstep : manifestMalStep depName depVersion acc mE = Except.ok acc2) :
    ∀ f ∈ acc2.1.vulnerabilities, severityInv allDeps f := by
  unfold manifestMalStep at hstep
  cases hm : matchesVersionJ depVersion mE.version with
  | error e => rw [hm] at hstep; cases hstep
  | ok matched =>
    rw [hm] at hstep
    simp only [] at hstep
    split_ifs at hstep with h1 h2
    · cases hstep; exact hP
    · cases hstep
      intro f hf
      rcases List.mem_append.mp hf with hold | hnew
      · exact hP f hold
      · simp only [List.mem_singleton] at hnew
        subst hnew
        exact severityInv_of_direct allDeps depName depVersion mE.version hdep
    · cases hstep; exact hP

lemma processManifestDep_sevInv (allDeps : List (String × Json))
    (malicious : List BadEntry) (st st2 : ScanState) (dep : String × Json)
    (hdep : containsKey allDeps dep.1 = true)
    (hP : ∀ f ∈ st.vulnerabilities, severityInv allDeps f)
    (hstep : processManifestDep malicious st dep = Except.ok st2) :
    ∀ f ∈ st2.vulnerabilities, severityInv allDeps f := by
  unfold processManifestDep at hstep
  cases hfold : (malicious.filter (fun m => m.package == dep.1)).foldlM
      (manifestMalStep dep.1 dep.2) (st, false) with
  | error e => rw [hfold] at hstep; cases hstep
  | ok p =>
    obtain ⟨st1, hv⟩ := p
    have hP1 : ∀ f ∈ st1.vulnerabilities, severityInv allDeps f := by
      have := foldlM_except_inv (manifestMalStep dep.1 dep.2)
        (fun acc : ScanState × Bool => ∀ f ∈ acc.1.vulnerabilities, severityInv allDeps f)
        (malicious.filter (fun m => m.package == dep.1)) (st, false) hP
        (fun mE _ acc acc2 hPa hs =>
          manifestMalStep_sevInv allDeps dep.1 dep.2 hdep mE acc acc2 hPa hs)
        (st1, hv) hfold
      exact this
    rw [hfold] at hstep
    simp only [] at hstep
    split_ifs at hstep
    · cases hstep
      intro f hf
      exact hP1 f hf
    · cases hstep; exact hP1

lemma processLockEntry_sevInv (allDeps : List (String × Json))
    (malicious : List BadEntry) (st : ScanState) (entry : String × Json)
    (hP : ∀ f ∈ st.vulnerabilities, severityInv allDeps f) :
    ∀ f ∈ (processLockEntry malicious allDeps st entry).vulnerabilities,
      severityInv allDeps f := by
  unfold processLockEntry
  simp only []
  split
  · refine foldl_preserves (lockMalStep entry.1 entry.2 (containsKey allDeps entry.1))
      (fun s => ∀ f ∈ s.vulnerabilities, severityInv allDeps f) _ st hP ?_
    intro mE _ s1 hs1
    unfold lockMalStep
    simp only []
    split_ifs with hk hdir
    · exact hs1
    · intro f hf
      rcases List.mem_append.mp hf with hold | hnew
      · exact hs1 f hold
      · simp only [List.mem_singleton] at hnew
        subst hnew
        exact severityInv_of_direct allDeps entry.1 entry.2 mE.version hdir
    · intro f hf
      rcases List.mem_append.mp hf with hold | hnew
      · exact hs1 f hold
      · simp only [List.mem_singleton] at hnew
        subst hnew
        exact severityInv_of_transitive allDeps entry.1 entry.2 mE.version (by simpa using hdir)
  · split_ifs <;> exact fun f hf => hP f hf

/-- C8: every finding of a successful checkDependencies run has
severity high exactly when its match type is direct and medium exactly
when transitive, and its match type is direct exactly when its package
name is in the manifest's merged dependency/dev-dependency set (so
manifest-derived findings, whose packages are always in that set, are
direct, and lock-derived findings are direct or transitive by that
membership). -/
theorem vulnerability_severity_match_type (m : String) (lfs : Option (List LockFile))
    (bad : List BadEntry) (out : ScanResult) (pkg : Json)
    (hp : jsonParse m = some pkg)
    (hok : checkDependencies m lfs bad = Except.ok out) :
    ∀ f ∈ out.vulnerabilities, severityInv (allDepsOf pkg) f := by
  unfold checkDependencies at hok
  rw [hp] at hok
  simp only [] at hok
  split_ifs at hok
  cases hfold : (allDepsOf pkg).foldlM (processManifestDep bad) emptyScanState with
  | error e => rw [hfold] at hok; cases hok
  | ok st1 =>
    rw [hfold] at hok
    simp only [] at hok
    have hP1 : ∀ f ∈ st1.vulnerabilities, severityInv (allDepsOf pkg) f := by
      refine foldlM_except_inv (processManifestDep bad)
        (fun st : ScanState => ∀ f ∈ st.vulnerabilities, severityInv (allDepsOf pkg) f)
        (allDepsOf pkg) emptyScanState (by intro f hf; simp [emptyScanState] at hf)
        ?_ st1 hfold
      intro dep hdep s1 s2 hPs hs
      have hc : containsKey (allDepsOf pkg) dep.1 = true := by
        unfold containsKey
        simp only [List.any_eq_true]
        exact ⟨dep, hdep, by simp⟩
      exact processManifestDep_sevInv (allDepsOf pkg) bad s1 s2 dep hc hPs hs
    cases lfs with
    | none =>
      cases hok
      exact hP1
    | some lfsv =>
      cases hok
      exact foldl_preserves (processLockEntry bad (allDepsOf pkg))
        (fun st : ScanState => ∀ f ∈ st.vulnerabilities, severityInv (allDepsOf pkg) f)
        (mergeLockedVersions lfsv) st1 hP1
        (fun entry _ s1 hs1 => processLockEntry_sevInv (allDepsOf pkg) bad s1 entry hs1)

/-- Witness for C8 on a concrete manifest-derived finding. -/
theorem vulnerability_severity_match_type_witness :
    severityInv (allDepsOf (Json.obj [("dependencies", Json.obj [("a", Json.str "5.11.3")])]))
      ⟨"a", Json.str "5.11.3", "5.11.3", "direct", "high"⟩ :=
  vulnerability_severity_match_type "\x7b\"dependencies\":\x7b\"a\":\"5.11.3\"\x7d\x7d" none
    [⟨"a", "5.11.3"⟩]
    ⟨[⟨"a", Json.str "5.11.3", "5.11.3", "direct", "high"⟩], []⟩
    (Json.obj [("dependencies", Json.obj [("a", Json.str "5.11.3")])])
    rfl rfl
    ⟨"a", Json.str "5.11.3", "5.11.3", "direct", "high"⟩
    (List.mem_singleton.mpr rfl)

/-! ## Claim C1 -/

lemma natOfDigits_append_one (xs : List Char) (c : Char) :
    natOfDigits (xs ++ [c]) = natOfDigits xs * 10 + digitVal c := by
  unfold natOfDigits
  rw [List.foldl_append]
  rfl

lemma digitVal_ofNat (d : Nat) (h : d < 10) :
    digitVal (Char.ofNat (48 + d)) = d := by
  interval_cases d <;> rfl

lemma natOfDigits_natKeyChars (n : Nat) : natOfDigits (natKeyChars n) = n := by
  induction n using Nat.strong_induction_on with
  | _ n ih =>
    unfold natKeyChars
    split_ifs with h
    · show natOfDigits [Char.ofNat (48 + n)] = n
      unfold natOfDigits
      simp [digitVal_ofNat n h]
    · rw [natOfDigits_append_one,
        ih (n / 10) (Nat.div_lt_self (by omega) (by omega)),
        digitVal_ofNat (n % 10) (Nat.mod_lt n (by omega))]
      omega

lemma natKey_injective : Function.Injective natKey := by
  intro a b hab
  have : natKeyChars a = natKeyChars b := by
    have := congrArg String.data hab
    simpa [natKey] using this
  calc a = natOfDigits (natKeyChars a) := (natOfDigits_natKeyChars a).symm
    _ = natOfDigits (natKeyChars b) := by rw [this]
    _ = b := natOfDigits_natKeyChars b

/-- Well-formedness of a JSON value as jsonParse produces it: every
object has pairwise distinct keys (the host keeps one property per
name), recursively. -/
inductive JsonWF : Json → Prop where
  | null : JsonWF Json.null
  | bool (b : Bool) : JsonWF (Json.bool b)
  | num (s : String) : JsonWF (Json.num s)
  | str (s : String) : JsonWF (Json.str s)
  | arr (xs : List Json) : (∀ x ∈ xs, JsonWF x) → JsonWF (Json.arr xs)
  | obj (kvs : List (String × Json)) : (kvs.map Prod.fst).Nodup →
      (∀ p ∈ kvs, JsonWF p.2) → JsonWF (Json.obj kvs)

lemma parseJsonNum_shape (cs : List Char) (j : Json) (rest : List Char)
    (h : parseJsonNum cs = some (j, rest)) : ∃ raw, j = Json.num raw := by
  unfold parseJsonNum at h
  simp only [] at h
  repeat' split at h
  all_goals first | (cases h; exact ⟨_, rfl⟩) | cases h

lemma parseJson_wf (fuel : Nat) :
    (∀ cs j rest, parseJsonVal fuel cs = some (j, rest) → JsonWF j) ∧
    (∀ cs acc j rest, (∀ x ∈ acc, JsonWF x) →
      parseJsonElems fuel cs acc = some (j, rest) → JsonWF j) ∧
    (∀ cs acc j rest, (acc.map Prod.fst).Nodup → (∀ p ∈ acc, JsonWF p.2) →
      parseJsonMembers fuel cs acc = some (j, rest) → JsonWF j) := by
  induction fuel with
  | zero =>
    refine ⟨?_, ?_, ?_⟩
    · intro cs j rest h
      simp [parseJsonVal] at h
    · intro cs acc j rest _ h
      simp [parseJsonElems] at h
    · intro cs acc j rest _ _ h
      simp [parseJsonMembers] at h
  | succ fuel ih =>
    obtain ⟨ihV, ihE, ihM⟩ := ih
    refine ⟨?_, ?_, ?_⟩
    · intro cs j rest h
      unfold parseJsonVal at h
      split at h
      · cases h; exact JsonWF.null
      · cases h; exact JsonWF.bool true
      · cases h; exact JsonWF.bool false
      · split at h
        · cases h; exact JsonWF.str _
        · cases h
      · split at h
        · cases h; exact JsonWF.arr [] (by simp)
        · exact ihE _ [] j rest (by simp) h
      · split at h
        · cases h; exact JsonWF.obj [] (by simp) (by simp)
        · exact ihM _ [] j rest (by simp) (by simp) h
      · obtain ⟨raw, hraw⟩ := parseJsonNum_shape _ _ _ h
        subst hraw
        exact JsonWF.num raw
    · intro cs acc j rest hacc h
      unfold parseJsonElems at h
      split at h
      · cases h
      · rename_i v rest1 heqv
        have hv : JsonWF v := ihV _ _ _ heqv
        split at h
        · exact ihE _ (acc ++ [v]) j rest
            (by intro x hx
                rcases List.mem_append.mp hx with hx | hx
                · exact hacc x hx
                · simp only [List.mem_singleton] at hx; subst hx; exact hv) h
        · cases h
          refine JsonWF.arr _ ?_
          intro x hx
          rcases List.mem_append.mp hx with hx | hx
          · exact hacc x hx
          · simp only [List.mem_singleton] at hx; subst hx; exact hv
        · cases h
    · intro cs acc j rest hnd hacc h
      unfold parseJsonMembers at h
      split at h
      · split at h
        · cases h
        · rename_i k r1 heqk
          split at h
          · split at h
            · cases h
            · rename_i v r3 heqv
              have hv : JsonWF v := ihV _ _ _ heqv
              have hnd2 : ((setKey acc k v).map Prod.fst).Nodup :=
                setKey_nodupKeys _ _ _ hnd
              have hwf2 : ∀ p ∈ setKey acc k v, JsonWF p.2 := by
                intro p hp
                rcases setKey_mem _ _ _ _ hp with he | hm
                · rw [he]; exact hv
                · exact hacc p hm
              split at h
              · exact ihM _ (setKey acc k v) j rest hnd2 hwf2 h
              · cases h
                exact JsonWF.obj _ hnd2 hwf2
              · cases h
          · cases h
      · cases h

lemma jsonParse_wf (s : String) (j : Json) (h : jsonParse s = some j) : JsonWF j := by
  unfold jsonParse at h
  cases hv : parseJsonVal (2 * s.data.length + 8) s.data with
  | none => rw [hv] at h; cases h
  | some p =>
    obtain ⟨j1, rest⟩ := p
    rw [hv] at h
    simp only [] at h
    split_ifs at h
    cases h
    exact (parseJson_wf _).1 _ _ _ hv

lemma jsField_wf (j : Json) (k : String) (v : Json) (hwf : JsonWF j)
    (hf : jsField j k = some v) : JsonWF v := by
  cases j with
  | obj kvs =>
    have hf2 : Option.map (fun p => p.2) (kvs.find? (fun p => p.1 == k)) = some v := hf
    cases hfind : kvs.find? (fun p => p.1 == k) with
    | none => rw [hfind] at hf2; cases hf2
    | some p =>
      rw [hfind] at hf2
      have hf3 : some p.2 = some v := hf2
      cases hf3
      cases hwf with
      | obj _ hnd hvals => exact hvals p (List.mem_of_find?_eq_some hfind)
  | null => cases hf
  | bool b => cases hf
  | num s => cases hf
  | str s => cases hf
  | arr xs => cases hf

lemma spreadJ_nodup (o : Option Json) (hwf : ∀ v, o = some v → JsonWF v) :
    ((spreadJ o).map Prod.fst).Nodup := by
  cases o with
  | none => simp [spreadJ]
  | some v =>
    cases v with
    | null => simp [spreadJ]
    | bool b => simp [spreadJ]
    | num s => simp [spreadJ]
    | obj kvs =>
      cases hwf _ rfl with
      | obj _ hnd _ => exact hnd
    | arr xs =>
      show ((xs.enum.map (fun p => (natKey p.1, p.2))).map Prod.fst).Nodup
      rw [List.map_map]
      have : (Prod.fst ∘ fun p : Nat × Json => (natKey p.1, p.2)) =
          (natKey ∘ Prod.fst) := rfl
      rw [this, ← List.map_map, List.enum_map_fst]
      exact (List.nodup_range _).map natKey_injective
    | str s =>
      show ((s.data.enum.map (fun p => (natKey p.1, Json.str (String.mk [p.2])))).map
        Prod.fst).Nodup
      rw [List.map_map]
      have : (Prod.fst ∘ fun p : Nat × Char => (natKey p.1, Json.str (String.mk [p.2]))) =
          (natKey ∘ Prod.fst) := rfl
      rw [this, ← List.map_map, List.enum_map_fst]
      exact (List.nodup_range _).map natKey_injective

lemma allDepsOf_nodup (pkg : Json) (hwf : JsonWF pkg) :
    ((allDepsOf pkg).map Prod.fst).Nodup := by
  unfold allDepsOf objAssign
  refine foldl_preserves _ (fun m : List (String × Json) => (m.map Prod.fst).Nodup) _ _
    (spreadJ_nodup _ (fun v hv => jsField_wf pkg "dependencies" v hwf hv)) ?_
  intro p _ s1 h1
  exact setKey_nodupKeys _ _ _ h1

lemma manifestMalStep_cases (depName : String) (depVersion : Json)
    (acc acc2 : ScanState × Bool) (mE : BadEntry)
    (h : manifestMalStep depName depVersion acc mE = Except.ok acc2) :
    acc2 = acc ∨ ∃ (f : Finding) (key : String), f.package = depName ∧
      acc2 = (⟨acc.1.vulnerabilities ++ [f], acc.1.affectedPackages,
        acc.1.foundVulnerabilities ++ [key], acc.1.foundAffected⟩, true) := by
  unfold manifestMalStep at h
  cases hm : matchesVersionJ depVersion mE.version with
  | error e => rw [hm] at h; cases h
  | ok matched =>
    rw [hm] at h
    simp only [] at h
    split_ifs at h with h1 h2
    · cases h; exact Or.inl rfl
    · cases h
      exact Or.inr ⟨⟨depName, depVersion, mE.version, "direct", "high"⟩,
        vulnKey depName mE.version, rfl, rfl⟩
    · cases h; exact Or.inl rfl

lemma manifestMalFold_state (depName : String) (depVersion : Json) :
    ∀ (mals : List BadEntry) (acc out : ScanState × Bool),
      mals.foldlM (manifestMalStep depName depVersion) acc = Except.ok out →
      out.1.affectedPackages = acc.1.affectedPackages ∧
      out.1.foundAffected = acc.1.foundAffected ∧
      (∀ f ∈ out.1.vulnerabilities, f ∈ acc.1.vulnerabilities ∨ f.package = depName) ∧
      (acc.2 = true → out.2 = true) ∧
      (out.2 = false → out.1 = acc.1)
  | [], acc, out, h => by
    simp only [List.foldlM_nil] at h
    cases h
    exact ⟨rfl, rfl, fun f hf => Or.inl hf, fun h2 => h2, fun _ => rfl⟩
  | mE :: mals, acc, out, h => by
    rw [List.foldlM_cons] at h
    cases hsa : manifestMalStep depName depVersion acc mE with
    | error e => rw [hsa] at h; simp [Bind.bind, Except.bind] at h
    | ok acc1 =>
      rw [hsa] at h
      simp only [Bind.bind, Except.bind] at h
      have ih := manifestMalFold_state depName depVersion mals acc1 out h
      rcases manifestMalStep_cases depName depVersion acc acc1 mE hsa with he | ⟨f0, key, hf0, he⟩
      · subst he
        exact ih
      · subst he
        obtain ⟨ihA, ihFA, ihV, ihMono, ihFalse⟩ := ih
        refine ⟨ihA, ihFA, ?_, fun _ => ihMono rfl, ?_⟩
        · intro f hf
          rcases ihV f hf with hmem | hp
          · rcases List.mem_append.mp hmem with hmem | hmem
            · exact Or.inl hmem
            · simp only [List.mem_singleton] at hmem
              subst hmem
              exact Or.inr hf0
          · exact Or.inr hp
        · intro hfalse
          exact absurd (ihMono rfl) (by rw [hfalse]; simp)

lemma processManifestDep_state (malicious : List BadEntry) (st st2 : ScanState)
    (dep : String × Json)
    (h : processManifestDep malicious st dep = Except.ok st2) :
    (∀ f ∈ st2.vulnerabilities, f ∈ st.vulnerabilities ∨ f.package = dep.1) ∧
    (∀ a ∈ st2.affectedPackages, a ∈ st.affectedPackages ∨ a.package = dep.1) ∧
    (st2.vulnerabilities = st.vulnerabilities ∨
      st2.affectedPackages = st.affectedPackages) := by
  unfold processManifestDep at h
  cases hfold : (malicious.filter (fun m => m.package == dep.1)).foldlM
      (manifestMalStep dep.1 dep.2) (st, false) with
  | error e => rw [hfold] at h; cases h
  | ok p =>
    obtain ⟨st1, hv⟩ := p
    have hfs := manifestMalFold_state dep.1 dep.2 _ (st, false) (st1, hv) hfold
    rw [hfold] at h
    simp only [] at h
    split_ifs at h with hcond
    · have hvf : hv = false := by
        simp only [Bool.and_eq_true, Bool.not_eq_eq_eq_not, Bool.not_true] at hcond
        exact hcond.1.1
      have hst1 : st1 = st := hfs.2.2.2.2 hvf
      subst hst1
      cases h
      refine ⟨fun f hf => Or.inl hf, ?_, Or.inl rfl⟩
      intro a ha
      rcases List.mem_append.mp ha with ha | ha
      · exact Or.inl ha
      · simp only [List.mem_singleton] at ha
        subst ha
        exact Or.inr rfl
    · cases h
      exact ⟨hfs.2.2.1, fun a ha => Or.inl (hfs.1 ▸ ha), Or.inr hfs.1⟩

lemma phase1_disjoint (malicious : List BadEntry) :
    ∀ (deps : List (String × Json)) (st out : ScanState),
      deps.foldlM (processManifestDep malicious) st = Except.ok out →
      (deps.map Prod.fst).Nodup →
      (∀ f ∈ st.vulnerabilities, f.package ∉ deps.map Prod.fst) →
      (∀ a ∈ st.affectedPackages, a.package ∉ deps.map Prod.fst) →
      (∀ f ∈ st.vulnerabilities, ∀ a ∈ st.affectedPackages, f.package ≠ a.package) →
      ∀ f ∈ out.vulnerabilities, ∀ a ∈ out.affectedPackages, f.package ≠ a.package
  | [], st, out, h, _, _, _, hdisj => by
    simp only [List.foldlM_nil] at h
    cases h
    exact hdisj
  | dep :: deps, st, out, h, hnd, hv, ha, hdisj => by
    rw [List.foldlM_cons] at h
    cases hstep : processManifestDep malicious st dep with
    | error e => rw [hstep] at h; simp [Bind.bind, Except.bind] at h
    | ok st1 =>
      rw [hstep] at h
      simp only [Bind.bind, Except.bind] at h
      obtain ⟨hs1, hs2, hs3⟩ := processManifestDep_state malicious st st1 dep hstep
      rw [List.map_cons, List.nodup_cons] at hnd
      refine phase1_disjoint malicious deps st1 out h hnd.2 ?_ ?_ ?_
      · intro f hf
        rcases hs1 f hf with hmem | hp
        · have hnm := hv f hmem
          simp only [List.map_cons, List.mem_cons] at hnm
          exact fun hc => hnm (Or.inr hc)
        · rw [hp]; exact hnd.1
      · intro a haff
        rcases hs2 a haff with hmem | hp
        · have hnm := ha a hmem
          simp only [List.map_cons, List.mem_cons] at hnm
          exact fun hc => hnm (Or.inr hc)
        · rw [hp]; exact hnd.1
      · intro f hf a haff
        rcases hs1 f hf with hfm | hfp
        · rcases hs2 a haff with ham | hap
          · exact hdisj f hfm a ham
          · intro hc
            have hnm := hv f hfm
            simp only [List.map_cons, List.mem_cons] at hnm
            exact hnm (Or.inl (hc.trans hap))
        · rcases hs2 a haff with ham | hap
          · intro hc
            have hnm := ha a ham
            simp only [List.map_cons, List.mem_cons] at hnm
            exact hnm (Or.inl (hc.symm.trans hfp))
          · rcases hs3 with hveq | haeq
            · intro _
              have hfm : f ∈ st.vulnerabilities := hveq ▸ hf
              have hnm := hv f hfm
              simp only [List.map_cons, List.mem_cons] at hnm
              exact hnm (Or.inl hfp)
            · intro _
              have ham : a ∈ st.affectedPackages := haeq ▸ haff
              have hnm := ha a ham
              simp only [List.map_cons, List.mem_cons] at hnm
              exact hnm (Or.inl hap)

/-- Counterexample to C1: with a lock file present, the same package
name can appear in both output lists of one invocation. The manifest
declares p at range caret 6.0.0, which the known-bad version 5.11.3
does not satisfy, so the manifest phase records an affected entry for
p; the yarn lock resolves p to exactly 5.11.3, so the lock phase
records a vulnerability for p, and nothing removes the affected
entry. -/
theorem both_lists_overlap_counterexample :
    ∃ out, checkDependencies
        "\x7b\"dependencies\":\x7b\"p\":\"^6.0.0\"\x7d\x7d"
        (some [⟨"yarn.lock", "p@^6.0.0:\n  version \"5.11.3\"\n"⟩])
        [⟨"p", "5.11.3"⟩] = Except.ok out ∧
      ∃ f ∈ out.vulnerabilities, ∃ a ∈ out.affectedPackages,
        f.package = a.package := by
  refine ⟨⟨[⟨"p", Json.str "5.11.3", "5.11.3", "direct", "high"⟩],
           [⟨"p", Json.str "^6.0.0", ["5.11.3"], none⟩]⟩, rfl, ?_⟩
  exact ⟨_, List.mem_singleton.mpr rfl, _, List.mem_singleton.mpr rfl, rfl⟩

/-- C1 (amended): when no lock files are supplied, no package name
appears in both output lists of a successful run: every finding of the
manifest phase carries the name of the dependency being processed,
every affected entry likewise, the merged dependency map has no
duplicate keys, and for one dependency the two pushes are mutually
exclusive (the affected push requires that no version matched, in
which case the vulnerability list is unchanged). With lock files the
suppression only holds within each phase, not across phases. -/
theorem manifest_scan_lists_disjoint (m : String) (malicious : List BadEntry)
    (out : ScanResult)
    (h : checkDependencies m none malicious = Except.ok out) :
    ∀ f ∈ out.vulnerabilities, ∀ a ∈ out.affectedPackages,
      f.package ≠ a.package := by
  unfold checkDependencies at h
  cases hj : jsonParse m with
  | none => rw [hj] at h; cases h
  | some pkg =>
    rw [hj] at h
    simp only [] at h
    split_ifs at h
    cases hfold : (allDepsOf pkg).foldlM (processManifestDep malicious)
        emptyScanState with
    | error e => rw [hfold] at h; cases h
    | ok st1 =>
      rw [hfold] at h
      simp only [] at h
      cases h
      exact phase1_disjoint malicious (allDepsOf pkg) emptyScanState st1 hfold
        (allDepsOf_nodup pkg (jsonParse_wf m pkg hj))
        (fun f hf => absurd hf (List.not_mem_nil f))
        (fun a ha => absurd ha (List.not_mem_nil a))
        (fun f hf => absurd hf (List.not_mem_nil f))

/-- Witness for the amended C1 on a manifest with one vulnerable and
one merely listed dependency. -/
theorem manifest_scan_lists_disjoint_witness :
    Finding.package ⟨"a", Json.str "5.11.3", "5.11.3", "direct", "high"⟩ ≠
      AffectedEntry.package ⟨"b", Json.str "^9.0.0", ["1.0.0"], none⟩ :=
  manifest_scan_lists_disjoint
    "\x7b\"dependencies\":\x7b\"a\":\"5.11.3\",\"b\":\"^9.0.0\"\x7d\x7d"
    [⟨"a", "5.11.3"⟩, ⟨"b", "1.0.0"⟩]
    ⟨[⟨"a", Json.str "5.11.3", "5.11.3", "direct", "high"⟩],
     [⟨"b", Json.str "^9.0.0", ["1.0.0"], none⟩]⟩
    rfl
    ⟨"a", Json.str "5.11.3", "5.11.3", "direct", "high"⟩
    (List.mem_singleton.mpr rfl)
    ⟨"b", Json.str "^9.0.0", ["1.0.0"], none⟩
    (List.mem_singleton.mpr rfl)
